import Mathlib

/-!
Shallow embedding of the availability-resolution and suggestion-ranking
engine of the lattice repository (`apps/web/src/lib`): the minute-of-day
interval algebra, local-time conversion over fixed-offset zones, the
availability resolver, the candidate generator with scoring and ranking,
the confirmation-time conflict primitive, and the data fingerprint.

Modelling conventions, kept uniform through the file:
* UTC instants (ISO-8601 strings handled by luxon in the source) are
  integer minutes since the UTC epoch; comparison of two UTC ISO strings
  is comparison of the corresponding integers.
* An IANA time zone is modelled as a fixed offset in minutes; every luxon
  identity the engine relies on (`startOf day`, `toISODate`, minute
  diffs) holds exactly for fixed-offset zones.
* JavaScript floating-point score arithmetic is modelled over `Rat`.
-/

namespace Lattice

/-- Minute-of-day interval, from `apps/web/src/lib/availability/intervals.ts`.
The source field `end` is a reserved word in Lean and is called `stop` here. -/
structure Interval where
  start : Int
  stop : Int
deriving DecidableEq, Repr

/-- `clampMinute` from `intervals.ts`: clamp a bound to `[0, 1440]`.  The NaN
guard and `Math.trunc` of the source are vacuous over `Int`. -/
def clampMinute (n : Int) : Int := max 0 (min 1440 n)

/-- Clamp both bounds of an interval, as the `map` step of `normalizeIntervals`. -/
def clampI (i : Interval) : Interval := ⟨clampMinute i.start, clampMinute i.stop⟩

/-- The cleaning phase of `normalizeIntervals`: clamp every interval, drop
empty or inverted intervals, drop intervals shorter than `minSize`. -/
def cleanedIntervals (minSize : Int) (l : List Interval) : List Interval :=
  (l.map clampI).filter fun i => decide (i.start < i.stop) && decide (minSize ≤ i.stop - i.start)

/-- Ordering by `start`, the comparator `(a, b) => a.start - b.start`. -/
def startLE (a b : Interval) : Prop := a.start ≤ b.start

instance : DecidableRel startLE := fun a b => Int.decLe a.start b.start

instance : IsTotal Interval startLE := ⟨fun a b => Int.le_total a.start b.start⟩

instance : IsTrans Interval startLE := ⟨fun _ _ _ h h2 => le_trans h h2⟩

/-- The `.sort((a, b) => a.start - b.start)` step: a stable sort by `start`
(JavaScript array sort is stable; insertion sort on a reflexive total
preorder is stable in the same sense). -/
def sortByStart (l : List Interval) : List Interval :=
  l.insertionSort startLE

/-- The merge loop of `normalizeIntervals`: `acc` is the trailing interval of
the accumulator; a new interval is pushed when `cur.start > last.end`,
otherwise the trailing end is extended to the max of the two ends. -/
def mergeRun : Interval → List Interval → List Interval
  | acc, [] => [acc]
  | acc, cur :: rest =>
    if acc.stop < cur.start then acc :: mergeRun cur rest
    else mergeRun ⟨acc.start, max acc.stop cur.stop⟩ rest

/-- Run the merge loop from an empty accumulator. -/
def mergeAll : List Interval → List Interval
  | [] => []
  | first :: rest => mergeRun first rest

/-- `normalizeIntervals` from `intervals.ts` (the source default for `minSize`
is 15; the engine passes 1 at every internal call site). -/
def normalizeIntervals (intervals : List Interval) (minSize : Int) : List Interval :=
  mergeAll (sortByStart (cleanedIntervals minSize intervals))

/-- `unionIntervals` from `intervals.ts`. -/
def unionIntervals (base add : List Interval) (minSize : Int) : List Interval :=
  normalizeIntervals (base ++ add) minSize

/-- One splitting step of `subtractIntervals`: split the fragment `f` against
the removal interval `ri`. -/
def splitOne (ri f : Interval) : List Interval :=
  if ri.stop ≤ f.start ∨ ri.start ≥ f.stop then [f]
  else
    (if ri.start > f.start then [⟨f.start, ri.start⟩] else []) ++
      (if ri.stop < f.stop then [⟨ri.stop, f.stop⟩] else [])

/-- The inner loop of `subtractIntervals`: split one base interval against
every normalized removal interval in order.  The source breaks out of the
loop once the fragment list is empty, which agrees with folding on. -/
def subtractFrags (r : List Interval) (f : Interval) : List Interval :=
  r.foldl (fun frs ri => frs.flatMap (splitOne ri)) [f]

/-- `subtractIntervals` from `intervals.ts`. -/
def subtractIntervals (base remove : List Interval) (minSize : Int) : List Interval :=
  let b := normalizeIntervals base minSize
  let r := normalizeIntervals remove minSize
  if r = [] then b
  else normalizeIntervals (b.flatMap (subtractFrags r)) minSize

/-- `intervalsOverlap` from `apps/web/src/lib/events/conflicts.ts`, with the
`Date` arguments modelled as UTC instants. -/
def intervalsOverlap (aStart aEnd bStart bEnd : Int) : Bool :=
  decide (aStart < bEnd) && decide (aEnd > bStart)

/-- A time zone, modelled as a fixed UTC offset in minutes. -/
structure TimeZone where
  offset : Int
deriving DecidableEq, Repr

/-- Local wall-clock minutes of a UTC instant viewed in a zone. -/
def localClock (tz : TimeZone) (t : Int) : Int := t + tz.offset

/-- luxon `toISODate` of an instant viewed in a zone, as a local calendar
day number: the floor of the local minutes over 1440. -/
def localDate (tz : TimeZone) (t : Int) : Int := (localClock tz t).fdiv 1440

/-- `minutesSinceStartOfDay` from `engine.ts`: minutes since local midnight.
The `Math.round` of the source is vacuous at minute granularity. -/
def minutesSinceStartOfDay (tz : TimeZone) (t : Int) : Int := (localClock tz t).emod 1440

/-- luxon `weekday` (1 = Monday .. 7 = Sunday) of a local day number;
day 0 (1970-01-01) was a Thursday. -/
def weekdayOfDate (d : Int) : Int := (d + 3).emod 7 + 1

/-- The UTC instant of local midnight of date `d` in zone `tz`
(luxon `startOf("day")`). -/
def dayStartInstant (tz : TimeZone) (d : Int) : Int := d * 1440 - tz.offset

/-- Override kind, from the `OverrideDTO` type of `engine.ts`. -/
inductive OverrideKind
  | AVAILABLE
  | UNAVAILABLE
deriving DecidableEq, Repr

/-- `OverrideDTO` from `engine.ts`; the ISO instant strings are modelled as
integer UTC minutes. -/
structure OverrideDTO where
  startAt : Int
  endAt : Int
  kind : OverrideKind
deriving DecidableEq, Repr

/-- `overrideToLocalIntervalForDate` from `apps/web/src/lib/availability/time.ts`:
clip the UTC span of an override to one local calendar day and return it as a
minute-of-day interval, or `none` when the clipped span is empty or inverted.
`Math.floor` and `Math.ceil` of the source are vacuous at minute granularity. -/
def overrideToLocalIntervalForDate (o : OverrideDTO) (dateISO : Int) (tz : TimeZone) : Option Interval :=
  let dayStart := dayStartInstant tz dateISO
  let dayEnd := dayStart + 1440
  let s := max o.startAt dayStart
  let e := min o.endAt dayEnd
  if e ≤ s then none else some ⟨s - dayStart, e - dayStart⟩

/-- `WindowDTO` from `engine.ts`. -/
structure WindowDTO where
  dayOfWeek : Int
  startMinute : Int
  endMinute : Int
deriving DecidableEq, Repr

/-- `AttendeeAvailabilityInput` from `engine.ts`. -/
structure AttendeeAvailabilityInput where
  userId : String
  timeZone : TimeZone
  windows : List WindowDTO
  overrides : List OverrideDTO
deriving DecidableEq, Repr

/-- Lookup view of `indexOverridesByLocalDate` from `engine.ts`: the map entry
of a local date holds, in input order, every override whose local span
touches that date (the source walks `startLocal.startOf("day")` up to
`endLocal.startOf("day")` inclusive and pushes the override under each date). -/
def overridesForDate (tz : TimeZone) (overrides : List OverrideDTO) (dateISO : Int) : List OverrideDTO :=
  overrides.filter fun o =>
    decide (localDate tz o.startAt ≤ dateISO) && decide (dateISO ≤ localDate tz o.endAt)

/-- Lookup view of `buildWindowsByDay` from `engine.ts`: the weekly windows of
one weekday, grouped in input order and normalized with `minSize = 1`. -/
def baseForWeekday (windows : List WindowDTO) (day : Int) : List Interval :=
  normalizeIntervals
    ((windows.filter fun w => decide (w.dayOfWeek = day)).map fun w => ⟨w.startMinute, w.endMinute⟩) 1

/-- `computeEffectiveIntervalsForDate` from `engine.ts`, taking the base
interval set of the weekday directly (the source passes a by-weekday map and
looks the weekday up). -/
def computeEffectiveIntervalsForDate (tz : TimeZone) (dateISO : Int)
    (base : List Interval) (overrides : List OverrideDTO) : List Interval :=
  let adds := overrides.filterMap fun o =>
    if o.kind = OverrideKind.AVAILABLE then overrideToLocalIntervalForDate o dateISO tz else none
  let removes := overrides.filterMap fun o =>
    if o.kind = OverrideKind.AVAILABLE then none else overrideToLocalIntervalForDate o dateISO tz
  let withAdds := unionIntervals base adds 1
  let effective := subtractIntervals withAdds removes 1
  normalizeIntervals effective 1

/-- Result shape of `isUserAvailableForUtcInterval`; the `startLocal` and
`endLocal` DateTime fields of the source feed only the explanation strings,
which are not modelled. -/
inductive AvailCheck
  | notOk
  | okResult (startMinute stopMinute : Int) (covers : Bool)
deriving DecidableEq, Repr

/-- `isUserAvailableForUtcInterval` from `engine.ts`.  The per-call
`effectiveCache` memoizes the pure `computeEffectiveIntervalsForDate` on the
`(userId, date)` key and is semantically the identity, so it is dropped. -/
def isUserAvailableForUtcInterval (a : AttendeeAvailabilityInput) (startAtUtc endAtUtc : Int) : AvailCheck :=
  let startDate := localDate a.timeZone startAtUtc
  let endDate := localDate a.timeZone endAtUtc
  if startDate ≠ endDate then AvailCheck.notOk
  else
    let weekday := weekdayOfDate startDate
    let startMinute := minutesSinceStartOfDay a.timeZone startAtUtc
    let endMinute := minutesSinceStartOfDay a.timeZone endAtUtc
    let effective := computeEffectiveIntervalsForDate a.timeZone startDate
      (baseForWeekday a.windows weekday) (overridesForDate a.timeZone a.overrides startDate)
    AvailCheck.okResult startMinute endMinute
      (effective.any fun i => decide (i.start ≤ startMinute) && decide (endMinute ≤ i.stop))

/-- `clamp01` from `engine.ts`, over `Rat`. -/
def clamp01 (value : Rat) : Rat := max 0 (min 1 value)

/-- `penaltyForLocalInterval` from `engine.ts`.  The source compares
`startMinute / 60` and `endMinute / 60` against whole hours with exact
floating-point division; comparing minutes directly is equivalent. -/
def penaltyForLocalInterval (startMinute endMinute : Int) : Rat :=
  if 9 * 60 ≤ startMinute ∧ endMinute ≤ 17 * 60 then 0
  else if 8 * 60 ≤ startMinute ∧ endMinute ≤ 18 * 60 then 1/4
  else if 7 * 60 ≤ startMinute ∧ endMinute ≤ 19 * 60 then 3/5
  else 1

/-- `SuggestionScores` from `engine.ts`, over `Rat`. -/
structure SuggestionScores where
  total : Rat
  attendance : Rat
  inconvenience : Rat
  fairness : Rat
deriving DecidableEq, Repr

/-- `SuggestionCandidate` from `engine.ts`.  The human-readable `explanation`
field is not modelled; `rank` is 0 until ranking assigns it (the source omits
the field until then). -/
structure SuggestionCandidate where
  rank : Nat
  startAt : Int
  endAt : Int
  attendanceRatio : Rat
  score : SuggestionScores
  availableUserIds : List String
  missingUserIds : List String
deriving DecidableEq, Repr

/-- `GenerateSuggestionsInput` from `engine.ts`; `rangeStart` and `rangeEnd`
are local calendar day numbers in the request zone (the source parses the ISO
date strings in `input.timeZone` and takes `startOf("day")`). -/
structure GenerateSuggestionsInput where
  timeZone : TimeZone
  rangeStart : Int
  rangeEnd : Int
  durationMinutes : Int
  stepMinutes : Int
  dayStartMinute : Int
  dayEndMinute : Int
  attendees : List AttendeeAvailabilityInput
  maxCandidates : Option Nat
deriving DecidableEq, Repr

/-- Whether one attendee is judged available for a UTC window: the check
returned `ok` and some effective interval covers the local span. -/
def isAvailableFor (a : AttendeeAvailabilityInput) (startAtUtc endAtUtc : Int) : Bool :=
  match isUserAvailableForUtcInterval a startAtUtc endAtUtc with
  | AvailCheck.notOk => false
  | AvailCheck.okResult _ _ covers => covers

/-- The available attendees of a window together with the local minutes of
the window in their zone, in input order (the `penalties` array of the
source before the penalty map is applied). -/
def availableEntries (attendees : List AttendeeAvailabilityInput) (startAtUtc endAtUtc : Int) :
    List (AttendeeAvailabilityInput × Int × Int) :=
  attendees.filterMap fun a =>
    match isUserAvailableForUtcInterval a startAtUtc endAtUtc with
    | AvailCheck.notOk => none
    | AvailCheck.okResult s e covers => if covers then some (a, s, e) else none

/-- `availableUserIds` accumulated by the attendee loop of `generateSuggestions`. -/
def availableUserIdsFor (attendees : List AttendeeAvailabilityInput) (startAtUtc endAtUtc : Int) :
    List String :=
  (attendees.filter fun a => isAvailableFor a startAtUtc endAtUtc).map fun a => a.userId

/-- `missingUserIds` accumulated by the attendee loop of `generateSuggestions`. -/
def missingUserIdsFor (attendees : List AttendeeAvailabilityInput) (startAtUtc endAtUtc : Int) :
    List String :=
  (attendees.filter fun a => !isAvailableFor a startAtUtc endAtUtc).map fun a => a.userId

/-- The penalties of the available attendees of a window, in input order. -/
def penaltiesFor (attendees : List AttendeeAvailabilityInput) (startAtUtc endAtUtc : Int) : List Rat :=
  (availableEntries attendees startAtUtc endAtUtc).map fun entry =>
    penaltyForLocalInterval entry.2.1 entry.2.2

/-- `avgPenalty` of `generateSuggestions`: mean penalty over available
attendees, 1 when no attendee is available. -/
def avgPenaltyFor (attendees : List AttendeeAvailabilityInput) (startAtUtc endAtUtc : Int) : Rat :=
  let ps := penaltiesFor attendees startAtUtc endAtUtc
  if ps = [] then 1 else ps.foldl (· + ·) 0 / (ps.length : Rat)

/-- `maxPenalty` of `generateSuggestions`: `reduce(Math.max, 0)` over the
penalties of the available attendees, 1 when no attendee is available. -/
def maxPenaltyFor (attendees : List AttendeeAvailabilityInput) (startAtUtc endAtUtc : Int) : Rat :=
  let ps := penaltiesFor attendees startAtUtc endAtUtc
  if ps = [] then 1 else ps.foldl max 0

/-- `attendanceRatio` of one window: available over total attendees, 0 when
there are no attendees (the `totalAttendees === 0` ternary of the source). -/
def attendanceRatioFor (attendees : List AttendeeAvailabilityInput) (startAtUtc endAtUtc : Int) : Rat :=
  if attendees.length = 0 then 0
  else ((availableUserIdsFor attendees startAtUtc endAtUtc).length : Rat) / (attendees.length : Rat)

/-- The four scores of one window, as computed by `generateSuggestions`
(weights 0.6, 0.2, 0.2 as exact rationals). -/
def scoresFor (attendees : List AttendeeAvailabilityInput) (startAtUtc endAtUtc : Int) : SuggestionScores :=
  { total := clamp01 (6/10 * clamp01 (attendanceRatioFor attendees startAtUtc endAtUtc) +
      2/10 * clamp01 (1 - avgPenaltyFor attendees startAtUtc endAtUtc) +
      2/10 * clamp01 (1 - maxPenaltyFor attendees startAtUtc endAtUtc))
    attendance := clamp01 (attendanceRatioFor attendees startAtUtc endAtUtc)
    inconvenience := clamp01 (1 - avgPenaltyFor attendees startAtUtc endAtUtc)
    fairness := clamp01 (1 - maxPenaltyFor attendees startAtUtc endAtUtc) }

/-- The candidate record pushed by `generateSuggestions` for one window
(rank still unassigned). -/
def candidateFor (attendees : List AttendeeAvailabilityInput) (startAtUtc endAtUtc : Int) : SuggestionCandidate :=
  { rank := 0
    startAt := startAtUtc
    endAt := endAtUtc
    attendanceRatio := attendanceRatioFor attendees startAtUtc endAtUtc
    score := scoresFor attendees startAtUtc endAtUtc
    availableUserIds := availableUserIdsFor attendees startAtUtc endAtUtc
    missingUserIds := missingUserIdsFor attendees startAtUtc endAtUtc }

/-- One loop body of `generateSuggestions`: the candidate of local date
`dateISO` and day offset `offset`, or `none` when the window is skipped
(window past `dayEnd`, or `attendanceRatio ≤ 0`).  The luxon validity guards
never fire for fixed-offset zones. -/
def buildCandidate (input : GenerateSuggestionsInput) (dateISO offset : Int) : Option SuggestionCandidate :=
  let startAtUtc := dayStartInstant input.timeZone dateISO + offset
  let endAtUtc := startAtUtc + input.durationMinutes
  let dayEnd := dayStartInstant input.timeZone dateISO + input.dayEndMinute
  if endAtUtc > dayEnd then none
  else if attendanceRatioFor input.attendees startAtUtc endAtUtc ≤ 0 then none
  else some (candidateFor input.attendees startAtUtc endAtUtc)

/-- The local dates scanned by the outer loop of `generateSuggestions`:
`rangeStart` to `rangeEnd` inclusive. -/
def candidateDates (rangeStart rangeEnd : Int) : List Int :=
  if rangeEnd < rangeStart then []
  else (List.range (rangeEnd - rangeStart + 1).toNat).map fun k => rangeStart + (k : Int)

/-- The day offsets scanned by the inner loop of `generateSuggestions`:
from `dayStartMinute`, stepping by `stepMinutes`, while
`offset + durationMinutes ≤ dayEndMinute`.  When `stepMinutes ≤ 0` and the
loop condition is satisfiable the source loop does not terminate; the model
produces no windows there, which leaves every claim about emitted candidates
unaffected. -/
def candidateOffsets (dayStartMinute dayEndMinute durationMinutes stepMinutes : Int) : List Int :=
  if stepMinutes ≤ 0 then []
  else
    ((List.range (((dayEndMinute - durationMinutes - dayStartMinute) / stepMinutes).toNat + 1)).map
        fun k => dayStartMinute + (k : Int) * stepMinutes).filter
      fun o => decide (o + durationMinutes ≤ dayEndMinute)

/-- The unranked candidate pool built by the two nested loops of
`generateSuggestions`. -/
def rawCandidates (input : GenerateSuggestionsInput) : List SuggestionCandidate :=
  (candidateDates input.rangeStart input.rangeEnd).flatMap fun d =>
    (candidateOffsets input.dayStartMinute input.dayEndMinute input.durationMinutes
        input.stepMinutes).filterMap
      fun o => buildCandidate input d o

/-- The ranking comparator of `generateSuggestions` as a relation:
`candBefore a b` holds exactly when the source comparator returns a
non-positive number on `(a, b)` — descending total score, then descending
attendance score, then descending fairness score, then ascending UTC start
instant (lexicographic ISO-8601 comparison of UTC instants is their
chronological order). -/
def candBefore (a b : SuggestionCandidate) : Prop :=
  b.score.total < a.score.total ∨
    (a.score.total = b.score.total ∧
      (b.score.attendance < a.score.attendance ∨
        (a.score.attendance = b.score.attendance ∧
          (b.score.fairness < a.score.fairness ∨
            (a.score.fairness = b.score.fairness ∧ a.startAt ≤ b.startAt)))))

instance : DecidableRel candBefore := fun a b => by
  unfold candBefore
  infer_instance

/-- `.map((candidate, index) => ({ ...candidate, rank: index + 1 }))`,
generalized over the first rank. -/
def assignRanks (k : Nat) : List SuggestionCandidate → List SuggestionCandidate
  | [] => []
  | c :: rest => { c with rank := k } :: assignRanks (k + 1) rest

/-- `generateSuggestions` from `engine.ts`: build the candidate pool, sort it
with the ranking comparator (JavaScript array sort is stable; insertion sort
on the reflexive total preorder `candBefore` is stable in the same sense),
truncate to `maxCandidates` (default 25) and assign 1-based ranks. -/
def generateSuggestions (input : GenerateSuggestionsInput) : List SuggestionCandidate :=
  let maxCandidates := input.maxCandidates.getD 25
  assignRanks 1 (((rawCandidates input).insertionSort candBefore).take maxCandidates)

/-- SHA-256 hex digest, modelled as an injective function of its input: only
equality of digests is relevant to any claim and SHA-256 is treated as
collision-free, so the model takes the digest to be the input itself. -/
def sha256hex (s : String) : String := s

/-- `computeDataFingerprint` from `apps/web/src/lib/suggestions/state.ts`.
The two version maps (latest template/override `updatedAt` per user, latest
busy-block `createdAt` per user) are modelled as lookup functions returning
the `toISOString` rendering of the stored `Date`. -/
def computeDataFingerprint (attendeeUserIds : List String)
    (availabilityVersionByUser busyVersionByUser : String → Option String) : String :=
  let segments := attendeeUserIds.map fun userId =>
    userId ++ ":" ++ (availabilityVersionByUser userId).getD "none" ++ ":" ++
      (busyVersionByUser userId).getD "none"
  sha256hex (String.intercalate "|" segments)

/-- A concrete attendee used by concrete instances: UTC zone, one weekly
window on Thursday (luxon weekday 4) from 9:00 to 17:00, no overrides. -/
def exampleAttendee : AttendeeAvailabilityInput :=
  { userId := "u1", timeZone := ⟨0⟩, windows := [⟨4, 540, 1020⟩], overrides := [] }

/-- A concrete engine input used by concrete instances: day 0 (a Thursday)
scanned once, 30-minute slots between 9:00 and 10:00. -/
def exampleInput : GenerateSuggestionsInput :=
  { timeZone := ⟨0⟩, rangeStart := 0, rangeEnd := 0, durationMinutes := 30,
    stepMinutes := 30, dayStartMinute := 540, dayEndMinute := 600,
    attendees := [exampleAttendee], maxCandidates := none }

/-- An attendee whose only availability is 6:20 to 7:40 local, used by the
fairness-floor instance. -/
def exampleUnfairAttendee : AttendeeAvailabilityInput :=
  { userId := "u1", timeZone := ⟨0⟩, windows := [⟨4, 380, 460⟩], overrides := [] }

/-- Engine input whose single candidate sits at 6:30 to 7:00 local for its
only attendee (penalty 1). -/
def exampleUnfairInput : GenerateSuggestionsInput :=
  { exampleInput with
    dayStartMinute := 390
    dayEndMinute := 420
    attendees := [exampleUnfairAttendee] }

/-- An attendee in a +885 minute zone: the 9:00 to 9:30 UTC window of
`exampleInput` straddles local midnight for them. -/
def exampleCrossAttendee : AttendeeAvailabilityInput :=
  { userId := "u2", timeZone := ⟨885⟩, windows := [], overrides := [] }

/-- Engine input with one same-day attendee and one attendee for whom every
window crosses a local date boundary. -/
def exampleCrossInput : GenerateSuggestionsInput :=
  { exampleInput with attendees := [exampleAttendee, exampleCrossAttendee] }

/-- A second attendee with the same userId as `exampleAttendee` but no
weekly windows: never available. -/
def exampleDupAttendee : AttendeeAvailabilityInput :=
  { exampleAttendee with windows := [] }

/-- Engine input in which two attendees share one userId, exactly one of
them available for every generated window. -/
def exampleDupInput : GenerateSuggestionsInput :=
  { exampleInput with attendees := [exampleAttendee, exampleDupAttendee] }

/-- A minute point lies in an interval under half-open semantics. -/
def memPt (m : Int) (l : List Interval) : Prop := ∃ i ∈ l, i.start ≤ m ∧ m < i.stop

/-- A minute point lies in an interval under closed semantics. -/
def memPtC (m : Int) (l : List Interval) : Prop := ∃ i ∈ l, i.start ≤ m ∧ m ≤ i.stop

/-- Strict separation of two intervals: the first ends before the second starts. -/
def sep (a b : Interval) : Prop := a.stop < b.start

/-- The invariant of normalized interval sets stated in the spec data model:
bounds in `[0, 1440]`, nonempty, length at least `minSize`, sorted and
pairwise separated (overlapping or touching neighbours are merged). -/
def Canon (minSize : Int) (l : List Interval) : Prop :=
  (∀ i ∈ l, 0 ≤ i.start ∧ i.stop ≤ 1440 ∧ i.start < i.stop ∧ minSize ≤ i.stop - i.start) ∧
    l.Pairwise sep

-- Regression anchors mirroring the repository unit tests in
-- `apps/web/src/lib/availability/intervals.test.ts`.
example : normalizeIntervals [⟨60, 120⟩, ⟨110, 180⟩] 15 = [⟨60, 180⟩] := by decide
example : subtractIntervals [⟨60, 180⟩] [⟨90, 120⟩] 15 = [⟨60, 90⟩, ⟨120, 180⟩] := by decide
example : unionIntervals [⟨60, 90⟩] [⟨80, 120⟩] 15 = [⟨60, 120⟩] := by decide

lemma mem_cleaned_bounded {ms : Int} {l : List Interval} {i : Interval}
    (h : i ∈ cleanedIntervals ms l) :
    0 ≤ i.start ∧ i.stop ≤ 1440 ∧ i.start < i.stop ∧ ms ≤ i.stop - i.start := by
  rcases List.mem_filter.mp h with ⟨hmem, hpred⟩
  rcases List.mem_map.mp hmem with ⟨j, _, hj⟩
  simp only [Bool.and_eq_true, decide_eq_true_eq] at hpred
  subst hj
  refine ⟨?_, ?_, hpred.1, hpred.2⟩ <;> simp only [clampI, clampMinute] <;> omega

lemma mem_cleaned_of_shrink {ms : Int} {l : List Interval} {i : Interval}
    (h : i ∈ cleanedIntervals ms l) :
    ∃ j ∈ l, j.start ≤ i.start ∧ i.stop ≤ j.stop := by
  rcases List.mem_filter.mp h with ⟨hmem, hpred⟩
  rcases List.mem_map.mp hmem with ⟨j, hjl, hj⟩
  simp only [Bool.and_eq_true, decide_eq_true_eq] at hpred
  subst hj
  refine ⟨j, hjl, ?_, ?_⟩ <;> simp only [clampI, clampMinute] at * <;> omega

lemma cleaned_mem_of_bounded {ms : Int} {l : List Interval} {i : Interval} (hil : i ∈ l)
    (h0 : 0 ≤ i.start) (h1 : i.stop ≤ 1440) (h2 : i.start < i.stop) (h3 : ms ≤ i.stop - i.start) :
    i ∈ cleanedIntervals ms l := by
  have hc : clampI i = i := by
    simp only [clampI, clampMinute]
    cases i
    simp_all
    omega
  refine List.mem_filter.mpr ⟨?_, ?_⟩
  · rw [← hc]; exact List.mem_map_of_mem clampI hil
  · simp only [Bool.and_eq_true, decide_eq_true_eq]
    exact ⟨h2, h3⟩

lemma sortByStart_perm (l : List Interval) : List.Perm (sortByStart l) l :=
  List.perm_insertionSort startLE l

lemma mem_sortByStart {l : List Interval} {i : Interval} : i ∈ sortByStart l ↔ i ∈ l :=
  (sortByStart_perm l).mem_iff

lemma sortByStart_sorted (l : List Interval) : (sortByStart l).Pairwise startLE :=
  List.sorted_insertionSort startLE l

lemma mergeRun_starts (rest : List Interval) : ∀ acc : Interval, ∀ j ∈ mergeRun acc rest,
    ∃ g ∈ acc :: rest, j.start = g.start ∧ g.stop ≤ j.stop := by
  induction rest with
  | nil =>
    intro acc j hj
    simp only [mergeRun, List.mem_singleton] at hj
    subst hj
    exact ⟨j, List.mem_cons_self _ _, rfl, le_refl _⟩
  | cons cur rest ih =>
    intro acc j hj
    by_cases h : acc.stop < cur.start
    · rw [mergeRun, if_pos h] at hj
      rcases List.mem_cons.mp hj with h1 | h2
      · subst h1
        exact ⟨j, List.mem_cons_self _ _, rfl, le_refl _⟩
      · rcases ih cur j h2 with ⟨g, hg, h3, h4⟩
        exact ⟨g, List.mem_cons_of_mem _ hg, h3, h4⟩
    · rw [mergeRun, if_neg h] at hj
      rcases ih ⟨acc.start, max acc.stop cur.stop⟩ j hj with ⟨g, hg, h3, h4⟩
      rcases List.mem_cons.mp hg with h1 | h2
      · subst h1
        refine ⟨acc, List.mem_cons_self _ _, h3, le_trans ?_ h4⟩
        exact le_max_left _ _
      · exact ⟨g, List.mem_cons_of_mem _ (List.mem_cons_of_mem _ h2), h3, h4⟩

lemma mergeRun_stops (rest : List Interval) : ∀ acc : Interval, ∀ j ∈ mergeRun acc rest,
    ∃ g ∈ acc :: rest, j.stop = g.stop := by
  induction rest with
  | nil =>
    intro acc j hj
    simp only [mergeRun, List.mem_singleton] at hj
    subst hj
    exact ⟨j, List.mem_cons_self _ _, rfl⟩
  | cons cur rest ih =>
    intro acc j hj
    by_cases h : acc.stop < cur.start
    · rw [mergeRun, if_pos h] at hj
      rcases List.mem_cons.mp hj with h1 | h2
      · subst h1
        exact ⟨j, List.mem_cons_self _ _, rfl⟩
      · rcases ih cur j h2 with ⟨g, hg, h3⟩
        exact ⟨g, List.mem_cons_of_mem _ hg, h3⟩
    · rw [mergeRun, if_neg h] at hj
      rcases ih ⟨acc.start, max acc.stop cur.stop⟩ j hj with ⟨g, hg, h3⟩
      rcases List.mem_cons.mp hg with h1 | h2
      · subst h1
        rcases max_choice acc.stop cur.stop with hm | hm
        · exact ⟨acc, List.mem_cons_self _ _, by simpa [hm] using h3⟩
        · exact ⟨cur, List.mem_cons_of_mem _ (List.mem_cons_self _ _), by simpa [hm] using h3⟩
      · exact ⟨g, List.mem_cons_of_mem _ (List.mem_cons_of_mem _ h2), h3⟩

lemma memPt_cons {m : Int} {x : Interval} {l : List Interval} :
    memPt m (x :: l) ↔ (x.start ≤ m ∧ m < x.stop) ∨ memPt m l := by
  simp [memPt]

lemma memPtC_cons {m : Int} {x : Interval} {l : List Interval} :
    memPtC m (x :: l) ↔ (x.start ≤ m ∧ m ≤ x.stop) ∨ memPtC m l := by
  simp [memPtC]

lemma memPt_of_perm {l1 l2 : List Interval} (h : List.Perm l1 l2) (m : Int) :
    memPt m l1 ↔ memPt m l2 := by
  unfold memPt
  constructor
  · rintro ⟨i, hi, hp⟩; exact ⟨i, h.mem_iff.mp hi, hp⟩
  · rintro ⟨i, hi, hp⟩; exact ⟨i, h.mem_iff.mpr hi, hp⟩

lemma memPtC_of_perm {l1 l2 : List Interval} (h : List.Perm l1 l2) (m : Int) :
    memPtC m l1 ↔ memPtC m l2 := by
  unfold memPtC
  constructor
  · rintro ⟨i, hi, hp⟩; exact ⟨i, h.mem_iff.mp hi, hp⟩
  · rintro ⟨i, hi, hp⟩; exact ⟨i, h.mem_iff.mpr hi, hp⟩

lemma mergeRun_sep (rest : List Interval) : ∀ acc : Interval,
    (acc :: rest).Pairwise startLE → (mergeRun acc rest).Pairwise sep := by
  induction rest with
  | nil =>
    intro acc _
    simp [mergeRun]
  | cons cur rest ih =>
    intro acc hp
    rcases List.pairwise_cons.mp hp with ⟨hacc, htail⟩
    by_cases h : acc.stop < cur.start
    · rw [mergeRun, if_pos h]
      refine List.pairwise_cons.mpr ⟨?_, ih cur htail⟩
      intro j hj
      rcases mergeRun_starts rest cur j hj with ⟨g, hg, h3, _⟩
      have hgs : cur.start ≤ g.start := by
        rcases List.mem_cons.mp hg with h1 | h2
        · subst h1; exact le_refl _
        · exact (List.pairwise_cons.mp htail).1 g h2
      unfold sep
      omega
    · rw [mergeRun, if_neg h]
      refine ih ⟨acc.start, max acc.stop cur.stop⟩ (List.pairwise_cons.mpr ⟨?_, ?_⟩)
      · intro b hb
        exact hacc b (List.mem_cons_of_mem _ hb)
      · exact (List.pairwise_cons.mp htail).2

lemma mergeRun_memPt (rest : List Interval) : ∀ acc : Interval,
    (acc :: rest).Pairwise startLE → ∀ m : Int,
    (memPt m (mergeRun acc rest) ↔ memPt m (acc :: rest)) := by
  induction rest with
  | nil =>
    intro acc _ m
    rfl
  | cons cur rest ih =>
    intro acc hp m
    rcases List.pairwise_cons.mp hp with ⟨hacc, htail⟩
    by_cases h : acc.stop < cur.start
    · rw [mergeRun, if_pos h, memPt_cons, memPt_cons, ih cur htail m]
    · rw [mergeRun, if_neg h]
      have hp2 : (Interval.mk acc.start (max acc.stop cur.stop) :: rest).Pairwise startLE := by
        refine List.pairwise_cons.mpr ⟨?_, (List.pairwise_cons.mp htail).2⟩
        intro b hb
        exact hacc b (List.mem_cons_of_mem _ hb)
      rw [ih _ hp2 m, memPt_cons, memPt_cons, memPt_cons]
      have hle : acc.start ≤ cur.start := hacc cur (List.mem_cons_self _ _)
      have key : ((⟨acc.start, max acc.stop cur.stop⟩ : Interval).start ≤ m ∧
          m < (⟨acc.start, max acc.stop cur.stop⟩ : Interval).stop) ↔
          ((acc.start ≤ m ∧ m < acc.stop) ∨ (cur.start ≤ m ∧ m < cur.stop)) := by
        simp only []
        omega
      rw [key, or_assoc]

lemma mergeRun_memPtC (rest : List Interval) : ∀ acc : Interval,
    (acc :: rest).Pairwise startLE → ∀ m : Int,
    (memPtC m (mergeRun acc rest) ↔ memPtC m (acc :: rest)) := by
  induction rest with
  | nil =>
    intro acc _ m
    rfl
  | cons cur rest ih =>
    intro acc hp m
    rcases List.pairwise_cons.mp hp with ⟨hacc, htail⟩
    by_cases h : acc.stop < cur.start
    · rw [mergeRun, if_pos h, memPtC_cons, memPtC_cons, ih cur htail m]
    · rw [mergeRun, if_neg h]
      have hp2 : (Interval.mk acc.start (max acc.stop cur.stop) :: rest).Pairwise startLE := by
        refine List.pairwise_cons.mpr ⟨?_, (List.pairwise_cons.mp htail).2⟩
        intro b hb
        exact hacc b (List.mem_cons_of_mem _ hb)
      rw [ih _ hp2 m, memPtC_cons, memPtC_cons, memPtC_cons]
      have hle : acc.start ≤ cur.start := hacc cur (List.mem_cons_self _ _)
      have hcs : cur.start ≤ acc.stop := le_of_not_lt h
      have key : ((⟨acc.start, max acc.stop cur.stop⟩ : Interval).start ≤ m ∧
          m ≤ (⟨acc.start, max acc.stop cur.stop⟩ : Interval).stop) ↔
          ((acc.start ≤ m ∧ m ≤ acc.stop) ∨ (cur.start ≤ m ∧ m ≤ cur.stop)) := by
        simp only []
        omega
      rw [key, or_assoc]

lemma mergeRun_contains (rest : List Interval) : ∀ acc : Interval,
    (acc :: rest).Pairwise startLE → ∀ g ∈ acc :: rest,
    ∃ j ∈ mergeRun acc rest, j.start ≤ g.start ∧ g.stop ≤ j.stop := by
  induction rest with
  | nil =>
    intro acc _ g hg
    rcases List.mem_cons.mp hg with h1 | h2
    · subst h1; exact ⟨g, List.mem_cons_self _ _, le_refl _, le_refl _⟩
    · cases h2
  | cons cur rest ih =>
    intro acc hp g hg
    rcases List.pairwise_cons.mp hp with ⟨hacc, htail⟩
    by_cases h : acc.stop < cur.start
    · rw [mergeRun, if_pos h]
      rcases List.mem_cons.mp hg with h1 | h2
      · subst h1
        exact ⟨g, List.mem_cons_self _ _, le_refl _, le_refl _⟩
      · rcases ih cur htail g h2 with ⟨j, hj, h3, h4⟩
        exact ⟨j, List.mem_cons_of_mem _ hj, h3, h4⟩
    · rw [mergeRun, if_neg h]
      have hp2 : (Interval.mk acc.start (max acc.stop cur.stop) :: rest).Pairwise startLE := by
        refine List.pairwise_cons.mpr ⟨?_, (List.pairwise_cons.mp htail).2⟩
        intro b hb
        exact hacc b (List.mem_cons_of_mem _ hb)
      have hle : acc.start ≤ cur.start := hacc cur (List.mem_cons_self _ _)
      rcases List.mem_cons.mp hg with h1 | h2
      · subst h1
        rcases ih _ hp2 _ (List.mem_cons_self _ _) with ⟨j, hj, h3, h4⟩
        refine ⟨j, hj, ?_, ?_⟩
        · exact h3
        · exact le_trans (le_max_left _ _) h4
      · rcases List.mem_cons.mp h2 with h3 | h4
        · subst h3
          rcases ih _ hp2 _ (List.mem_cons_self _ _) with ⟨j, hj, h5, h6⟩
          refine ⟨j, hj, le_trans h5 hle, le_trans (le_max_right _ _) h6⟩
        · rcases ih _ hp2 _ (List.mem_cons_of_mem _ h4) with ⟨j, hj, h5, h6⟩
          exact ⟨j, hj, h5, h6⟩

lemma mergeRun_of_sep (rest : List Interval) : ∀ acc : Interval,
    (acc :: rest).Pairwise sep → mergeRun acc rest = acc :: rest := by
  induction rest with
  | nil =>
    intro acc _
    rfl
  | cons cur rest ih =>
    intro acc hp
    rcases List.pairwise_cons.mp hp with ⟨hacc, htail⟩
    have h : acc.stop < cur.start := hacc cur (List.mem_cons_self _ _)
    rw [mergeRun, if_pos h, ih cur htail]

lemma normalize_canon (l : List Interval) (ms : Int) : Canon ms (normalizeIntervals l ms) := by
  unfold normalizeIntervals
  rcases hs : sortByStart (cleanedIntervals ms l) with _ | ⟨a, t⟩
  · exact ⟨(by intro i hi; cases hi), List.Pairwise.nil⟩
  constructor
  · intro j hj
    rcases mergeRun_starts t a j hj with ⟨g1, hg1, h1, h2⟩
    rcases mergeRun_stops t a j hj with ⟨g2, hg2, h3⟩
    have hb1 := mem_cleaned_bounded (mem_sortByStart.mp (hs ▸ hg1))
    have hb2 := mem_cleaned_bounded (mem_sortByStart.mp (hs ▸ hg2))
    refine ⟨?_, ?_, ?_, ?_⟩ <;> omega
  · exact mergeRun_sep t a (hs ▸ sortByStart_sorted (cleanedIntervals ms l))

lemma memPt_normalize (l : List Interval) (ms : Int) (m : Int) :
    memPt m (normalizeIntervals l ms) ↔ memPt m (cleanedIntervals ms l) := by
  unfold normalizeIntervals
  rcases hs : sortByStart (cleanedIntervals ms l) with _ | ⟨a, t⟩
  · have hp := sortByStart_perm (cleanedIntervals ms l)
    rw [hs] at hp
    rw [hp.symm.eq_nil]
    rfl
  · rw [show mergeAll (a :: t) = mergeRun a t from rfl,
      mergeRun_memPt t a (hs ▸ sortByStart_sorted (cleanedIntervals ms l)) m,
      ← hs]
    exact memPt_of_perm (sortByStart_perm _) m

lemma memPtC_normalize_shrink {l : List Interval} {ms m : Int}
    (h : memPtC m (normalizeIntervals l ms)) : ∃ i ∈ l, i.start ≤ m ∧ m ≤ i.stop := by
  unfold normalizeIntervals at h
  rcases hs : sortByStart (cleanedIntervals ms l) with _ | ⟨a, t⟩
  · rw [hs] at h
    rcases h with ⟨i, hi, _⟩
    cases hi
  · rw [hs] at h
    rw [show mergeAll (a :: t) = mergeRun a t from rfl,
      mergeRun_memPtC t a (hs ▸ sortByStart_sorted (cleanedIntervals ms l)) m] at h
    rw [← hs] at h
    rw [memPtC_of_perm (sortByStart_perm _) m] at h
    rcases h with ⟨i, hi, h1, h2⟩
    rcases mem_cleaned_of_shrink hi with ⟨j, hj, h3, h4⟩
    exact ⟨j, hj, by omega, by omega⟩

lemma normalize_contains {l : List Interval} {ms : Int} {i : Interval}
    (hi : i ∈ cleanedIntervals ms l) :
    ∃ j ∈ normalizeIntervals l ms, j.start ≤ i.start ∧ i.stop ≤ j.stop := by
  unfold normalizeIntervals
  have hmem : i ∈ sortByStart (cleanedIntervals ms l) := mem_sortByStart.mpr hi
  rcases hs : sortByStart (cleanedIntervals ms l) with _ | ⟨a, t⟩
  · rw [hs] at hmem
    cases hmem
  · rw [hs] at hmem
    exact mergeRun_contains t a (hs ▸ sortByStart_sorted (cleanedIntervals ms l)) i hmem

lemma clampI_eq_self {i : Interval} (h0 : 0 ≤ i.start) (h1 : i.stop ≤ 1440)
    (h2 : i.start < i.stop) : clampI i = i := by
  cases i
  simp only [clampI, clampMinute, Interval.mk.injEq] at *
  omega

lemma cleaned_of_canon {l : List Interval} {ms : Int} (h : Canon ms l) :
    cleanedIntervals ms l = l := by
  unfold cleanedIntervals
  have hmap : l.map clampI = l := by
    conv_rhs => rw [← List.map_id l]
    refine List.map_congr_left ?_
    intro a ha
    rcases h.1 a ha with ⟨h0, h1, h2, _⟩
    exact clampI_eq_self h0 h1 h2
  rw [hmap]
  refine List.filter_eq_self.mpr ?_
  intro a ha
  rcases h.1 a ha with ⟨_, _, h2, h3⟩
  simp only [Bool.and_eq_true, decide_eq_true_eq]
  exact ⟨h2, h3⟩

lemma sortByStart_of_sorted {l : List Interval} (h : l.Pairwise startLE) :
    sortByStart l = l :=
  List.Sorted.insertionSort_eq h

lemma pairwise_startLE_of_canon {l : List Interval} {ms : Int} (h : Canon ms l) :
    l.Pairwise startLE := by
  refine List.Pairwise.imp_of_mem ?_ h.2
  intro a b ha _ hab
  have := (h.1 a ha).2.2.1
  unfold sep at hab
  unfold startLE
  omega

lemma mergeAll_of_sep {l : List Interval} (h : l.Pairwise sep) : mergeAll l = l := by
  rcases l with _ | ⟨a, t⟩
  · rfl
  · exact mergeRun_of_sep t a h

lemma normalize_of_canon {l : List Interval} {ms : Int} (h : Canon ms l) :
    normalizeIntervals l ms = l := by
  unfold normalizeIntervals
  rw [cleaned_of_canon h, sortByStart_of_sorted (pairwise_startLE_of_canon h),
    mergeAll_of_sep h.2]

lemma canon_tail {ms : Int} {x : Interval} {t : List Interval} (h : Canon ms (x :: t)) :
    Canon ms t :=
  ⟨fun k hk => h.1 k (List.mem_cons_of_mem _ hk), (List.pairwise_cons.mp h.2).2⟩

lemma canon_covers_start_ge {ms : Int} {j : Interval} {t2 : List Interval}
    (h2 : Canon ms (j :: t2)) {m : Int} (hm : memPt m (j :: t2)) : j.start ≤ m := by
  rcases hm with ⟨k, hk, h3, _⟩
  rcases List.mem_cons.mp hk with h5 | h6
  · subst h5; exact h3
  · have hsep := (List.pairwise_cons.mp h2.2).1 k h6
    have hj := (h2.1 j (List.mem_cons_self _ _)).2.2.1
    unfold sep at hsep
    omega

lemma canon_head_stop_le {ms : Int} {i j : Interval} {t1 t2 : List Interval}
    (h2 : Canon ms (j :: t2)) (hsub : ∀ m, memPt m (i :: t1) → memPt m (j :: t2))
    (hstart : i.start = j.start) (_hne : i.start < i.stop) : i.stop ≤ j.stop := by
  by_contra hlt
  push_neg at hlt
  have hj := (h2.1 j (List.mem_cons_self _ _)).2.2.1
  have hm : memPt j.stop (i :: t1) := ⟨i, List.mem_cons_self _ _, by omega, by omega⟩
  rcases hsub j.stop hm with ⟨k, hk, h3, h4⟩
  rcases List.mem_cons.mp hk with h5 | h6
  · subst h5; omega
  · have hsep := (List.pairwise_cons.mp h2.2).1 k h6
    unfold sep at hsep
    omega

lemma canon_pts_tail {ms : Int} {x : Interval} {t1 t2 : List Interval}
    (h1 : Canon ms (x :: t1)) (hsub : ∀ m, memPt m (x :: t1) → memPt m (x :: t2)) :
    ∀ m, memPt m t1 → memPt m t2 := by
  intro m hm
  rcases hm with ⟨k, hk, h3, h4⟩
  have hsep := (List.pairwise_cons.mp h1.2).1 k hk
  unfold sep at hsep
  rcases hsub m ⟨k, List.mem_cons_of_mem _ hk, h3, h4⟩ with ⟨k2, hk2, h5, h6⟩
  rcases List.mem_cons.mp hk2 with h7 | h8
  · subst h7; omega
  · exact ⟨k2, h8, h5, h6⟩

lemma canon_ext {ms : Int} : ∀ {l1 l2 : List Interval}, Canon ms l1 → Canon ms l2 →
    (∀ m, memPt m l1 ↔ memPt m l2) → l1 = l2 := by
  intro l1
  induction l1 with
  | nil =>
    intro l2 _ h2 hpts
    rcases l2 with _ | ⟨j, t2⟩
    · rfl
    · have hm : memPt j.start (j :: t2) :=
        ⟨j, List.mem_cons_self _ _, le_refl _, (h2.1 j (List.mem_cons_self _ _)).2.2.1⟩
      rcases (hpts j.start).mpr hm with ⟨k, hk, _⟩
      cases hk
  | cons i t1 ih =>
    intro l2 h1 h2 hpts
    rcases l2 with _ | ⟨j, t2⟩
    · have hm : memPt i.start (i :: t1) :=
        ⟨i, List.mem_cons_self _ _, le_refl _, (h1.1 i (List.mem_cons_self _ _)).2.2.1⟩
      rcases (hpts i.start).mp hm with ⟨k, hk, _⟩
      cases hk
    · have hne1 : i.start < i.stop := (h1.1 i (List.mem_cons_self _ _)).2.2.1
      have hne2 : j.start < j.stop := (h2.1 j (List.mem_cons_self _ _)).2.2.1
      have hm1 : memPt i.start (i :: t1) := ⟨i, List.mem_cons_self _ _, le_refl _, hne1⟩
      have hm2 : memPt j.start (j :: t2) := ⟨j, List.mem_cons_self _ _, le_refl _, hne2⟩
      have hs1 : j.start ≤ i.start := canon_covers_start_ge h2 ((hpts i.start).mp hm1)
      have hs2 : i.start ≤ j.start := canon_covers_start_ge h1 ((hpts j.start).mpr hm2)
      have hstart : i.start = j.start := le_antisymm hs2 hs1
      have hstop1 : i.stop ≤ j.stop :=
        canon_head_stop_le h2 (fun m hm => (hpts m).mp hm) hstart hne1
      have hstop2 : j.stop ≤ i.stop :=
        canon_head_stop_le h1 (fun m hm => (hpts m).mpr hm) hstart.symm hne2
      have hij : i = j := by
        cases i; cases j
        simp only [Interval.mk.injEq] at *
        omega
      subst hij
      have htail : ∀ m, memPt m t1 ↔ memPt m t2 := by
        intro m
        constructor
        · exact canon_pts_tail h1 (fun m2 hm2 => (hpts m2).mp hm2) m
        · exact canon_pts_tail h2 (fun m2 hm2 => (hpts m2).mpr hm2) m
      rw [ih (canon_tail h1) (canon_tail h2) htail]

/-- C3: `normalizeIntervals` is idempotent: for every list of intervals `S`
and every `minSize` option, normalizing twice equals normalizing once. -/
theorem normalizeIntervals_idempotent (S : List Interval) (minSize : Int) :
    normalizeIntervals (normalizeIntervals S minSize) minSize = normalizeIntervals S minSize :=
  normalize_of_canon (normalize_canon S minSize)

/-- C9: `intervalsOverlap` has half-open semantics: it is true exactly when
`aStart < bEnd` and `aEnd > bStart`; intervals that merely touch at an
endpoint (10:00 to 11:00 versus 11:00 to 12:00) do not overlap, while a
properly contained interval (9:30 to 10:30 inside 9:00 to 11:00) does. -/
theorem intervalsOverlap_halfOpen :
    (∀ aStart aEnd bStart bEnd : Int,
      intervalsOverlap aStart aEnd bStart bEnd = true ↔ (aStart < bEnd ∧ aEnd > bStart)) ∧
    intervalsOverlap 600 660 660 720 = false ∧
    intervalsOverlap 540 660 570 630 = true := by
  refine ⟨?_, by decide, by decide⟩
  intro aStart aEnd bStart bEnd
  simp [intervalsOverlap]

/-- Witness: the half-open overlap characterization applied at the spec
instance 9:00 to 11:00 versus 9:30 to 10:30. -/
theorem intervalsOverlap_halfOpen_witness : intervalsOverlap 540 660 570 630 = true :=
  (intervalsOverlap_halfOpen.1 540 660 570 630).mpr (by decide)

lemma mem_splitOne_iff {ri f g : Interval} : g ∈ splitOne ri f ↔
    ((ri.stop ≤ f.start ∨ ri.start ≥ f.stop) ∧ g = f) ∨
    (¬(ri.stop ≤ f.start ∨ ri.start ≥ f.stop) ∧
      ((ri.start > f.start ∧ g = ⟨f.start, ri.start⟩) ∨
        (ri.stop < f.stop ∧ g = ⟨ri.stop, f.stop⟩))) := by
  unfold splitOne
  by_cases h : ri.stop ≤ f.start ∨ ri.start ≥ f.stop
  · rw [if_pos h]
    simp [h]
  · rw [if_neg h]
    by_cases h1 : ri.start > f.start
    · by_cases h2 : ri.stop < f.stop
      · rw [if_pos h1, if_pos h2]
        simp [h, h1, h2]
      · rw [if_pos h1, if_neg h2]
        simp [h, h1, h2]
    · by_cases h2 : ri.stop < f.stop
      · rw [if_neg h1, if_pos h2]
        simp [h, h1, h2]
      · rw [if_neg h1, if_neg h2]
        simp [h, h1, h2]

lemma memPt_splitOne {ri f : Interval} {m : Int} :
    memPt m (splitOne ri f) ↔
      ((f.start ≤ m ∧ m < f.stop) ∧ ¬(ri.start ≤ m ∧ m < ri.stop)) := by
  constructor
  · rintro ⟨i, hi, hp⟩
    rcases mem_splitOne_iff.mp hi with ⟨h, rfl⟩ | ⟨h, ⟨h1, rfl⟩ | ⟨h2, rfl⟩⟩ <;>
      (try simp only [] at hp ⊢) <;> omega
  · rintro ⟨hf, hri⟩
    by_cases h : ri.stop ≤ f.start ∨ ri.start ≥ f.stop
    · exact ⟨f, mem_splitOne_iff.mpr (Or.inl ⟨h, rfl⟩), hf⟩
    · rcases lt_or_le m ri.start with hm | hm
      · refine ⟨⟨f.start, ri.start⟩,
          mem_splitOne_iff.mpr (Or.inr ⟨h, Or.inl ⟨by omega, rfl⟩⟩), ?_⟩
        simp only []
        omega
      · push_neg at h
        refine ⟨⟨ri.stop, f.stop⟩,
          mem_splitOne_iff.mpr (Or.inr ⟨by omega, Or.inr ⟨by omega, rfl⟩⟩), ?_⟩
        simp only []
        omega

lemma memPt_flatMap {g : Interval → List Interval} {l : List Interval} {m : Int} :
    memPt m (l.flatMap g) ↔ ∃ f ∈ l, memPt m (g f) := by
  unfold memPt
  constructor
  · rintro ⟨i, hi, hp⟩
    rcases List.mem_flatMap.mp hi with ⟨f, hf, hig⟩
    exact ⟨f, hf, i, hig, hp⟩
  · rintro ⟨f, hf, i, hig, hp⟩
    exact ⟨i, List.mem_flatMap.mpr ⟨f, hf, hig⟩, hp⟩

lemma memPt_subtractStep {ri : Interval} {frs : List Interval} {m : Int} :
    memPt m (frs.flatMap (splitOne ri)) ↔
      (memPt m frs ∧ ¬(ri.start ≤ m ∧ m < ri.stop)) := by
  rw [memPt_flatMap]
  constructor
  · rintro ⟨f, hf, hm⟩
    rcases memPt_splitOne.mp hm with ⟨h1, h2⟩
    exact ⟨⟨f, hf, h1⟩, h2⟩
  · rintro ⟨⟨f, hf, h1⟩, h2⟩
    exact ⟨f, hf, memPt_splitOne.mpr ⟨h1, h2⟩⟩

lemma memPt_subtractFold {r : List Interval} : ∀ {frs : List Interval} {m : Int},
    memPt m (r.foldl (fun frs ri => frs.flatMap (splitOne ri)) frs) ↔
      (memPt m frs ∧ ∀ ri ∈ r, ¬(ri.start ≤ m ∧ m < ri.stop)) := by
  induction r with
  | nil =>
    intro frs m
    simp [List.foldl]
  | cons ri r ih =>
    intro frs m
    rw [List.foldl_cons, ih, memPt_subtractStep, List.forall_mem_cons]
    tauto

lemma memPt_subtractFrags {r : List Interval} {f : Interval} {m : Int} :
    memPt m (subtractFrags r f) ↔
      ((f.start ≤ m ∧ m < f.stop) ∧ ∀ ri ∈ r, ¬(ri.start ≤ m ∧ m < ri.stop)) := by
  unfold subtractFrags
  rw [memPt_subtractFold]
  have hf : memPt m [f] ↔ (f.start ≤ m ∧ m < f.stop) := by
    simp [memPt]
  rw [hf]

lemma memPt_subtractOut {b r : List Interval} {m : Int} :
    memPt m (b.flatMap (subtractFrags r)) ↔ (memPt m b ∧ ¬ memPt m r) := by
  rw [memPt_flatMap]
  constructor
  · rintro ⟨f, hf, hm⟩
    rcases memPt_subtractFrags.mp hm with ⟨h1, h2⟩
    exact ⟨⟨f, hf, h1⟩, fun hmem => by rcases hmem with ⟨ri, hri, hi⟩; exact h2 ri hri hi⟩
  · rintro ⟨⟨f, hf, h1⟩, h2⟩
    refine ⟨f, hf, memPt_subtractFrags.mpr ⟨h1, ?_⟩⟩
    intro ri hri hi
    exact h2 ⟨ri, hri, hi⟩

lemma splitOne_shrink0 {ri f : Interval} {g : Interval} (hg : g ∈ splitOne ri f) :
    f.start ≤ g.start ∧ g.stop ≤ f.stop := by
  rcases mem_splitOne_iff.mp hg with ⟨h, rfl⟩ | ⟨h, ⟨h1, rfl⟩ | ⟨h2, rfl⟩⟩ <;>
    constructor <;> (try simp only []) <;> omega

lemma splitOne_ne {ri f : Interval} {g : Interval} (hf : f.start < f.stop)
    (hg : g ∈ splitOne ri f) : g.start < g.stop := by
  rcases mem_splitOne_iff.mp hg with ⟨h, rfl⟩ | ⟨h, ⟨h1, rfl⟩ | ⟨h2, rfl⟩⟩ <;>
    (try simp only []) <;> omega

lemma splitOne_avoid {ri f : Interval} {g : Interval} (hg : g ∈ splitOne ri f) :
    g.stop ≤ ri.start ∨ ri.stop ≤ g.start := by
  rcases mem_splitOne_iff.mp hg with ⟨h, rfl⟩ | ⟨h, ⟨h1, rfl⟩ | ⟨h2, rfl⟩⟩ <;>
    (try simp only []) <;> omega

lemma subtractFold_shrink0 {r : List Interval} : ∀ {frs : List Interval} {g : Interval},
    g ∈ r.foldl (fun frs ri => frs.flatMap (splitOne ri)) frs →
    ∃ f ∈ frs, f.start ≤ g.start ∧ g.stop ≤ f.stop := by
  induction r with
  | nil =>
    intro frs g hg
    exact ⟨g, hg, le_refl _, le_refl _⟩
  | cons ri r ih =>
    intro frs g hg
    rw [List.foldl_cons] at hg
    rcases ih hg with ⟨f2, hf2, h1, h2⟩
    rcases List.mem_flatMap.mp hf2 with ⟨f, hf, hsplit⟩
    rcases splitOne_shrink0 hsplit with ⟨h3, h4⟩
    exact ⟨f, hf, by omega, by omega⟩

lemma subtractFold_ne {r : List Interval} : ∀ {frs : List Interval} {g : Interval},
    (∀ f ∈ frs, f.start < f.stop) →
    g ∈ r.foldl (fun frs ri => frs.flatMap (splitOne ri)) frs → g.start < g.stop := by
  induction r with
  | nil =>
    intro frs g hfrs hg
    exact hfrs g hg
  | cons ri r ih =>
    intro frs g hfrs hg
    rw [List.foldl_cons] at hg
    refine ih ?_ hg
    intro f2 hf2
    rcases List.mem_flatMap.mp hf2 with ⟨f, hf, hsplit⟩
    exact splitOne_ne (hfrs f hf) hsplit

lemma subtractFold_avoid {r : List Interval} : ∀ {frs : List Interval} {g : Interval},
    g ∈ r.foldl (fun frs ri => frs.flatMap (splitOne ri)) frs →
    ∀ ri ∈ r, g.stop ≤ ri.start ∨ ri.stop ≤ g.start := by
  induction r with
  | nil =>
    intro frs g _ ri hri
    cases hri
  | cons ri0 r ih =>
    intro frs g hg ri hri
    rw [List.foldl_cons] at hg
    rcases List.mem_cons.mp hri with h1 | h2
    · subst h1
      rcases subtractFold_shrink0 hg with ⟨f2, hf2, h3, h4⟩
      rcases List.mem_flatMap.mp hf2 with ⟨f, _, hsplit⟩
      rcases splitOne_avoid hsplit with h5 | h5
      · left; omega
      · right; omega
    · exact ih hg ri h2

lemma pairwise_sep_flatMap {g : Interval → List Interval} {l : List Interval}
    (hin : ∀ f, ∀ x ∈ g f, f.start ≤ x.start ∧ x.stop ≤ f.stop)
    (hself : ∀ f, (g f).Pairwise sep) (hl : l.Pairwise sep) : (l.flatMap g).Pairwise sep := by
  induction l with
  | nil => exact List.Pairwise.nil
  | cons f t ih =>
    rw [List.flatMap_cons]
    rcases List.pairwise_cons.mp hl with ⟨hf, ht⟩
    refine List.pairwise_append.mpr ⟨hself f, ih ht, ?_⟩
    intro x hx y hy
    rcases List.mem_flatMap.mp hy with ⟨f2, hf2, hyf2⟩
    have hsepf := hf f2 hf2
    rcases hin f x hx with ⟨_, h2⟩
    rcases hin f2 y hyf2 with ⟨h3, _⟩
    unfold sep at *
    omega

lemma splitOne_pairwise {ri f : Interval} (hri : ri.start < ri.stop) :
    (splitOne ri f).Pairwise sep := by
  unfold splitOne
  by_cases h : ri.stop ≤ f.start ∨ ri.start ≥ f.stop
  · rw [if_pos h]
    simp
  · rw [if_neg h]
    by_cases h1 : ri.start > f.start <;> by_cases h2 : ri.stop < f.stop
    · rw [if_pos h1, if_pos h2]
      refine List.pairwise_cons.mpr ⟨?_, ?_⟩
      · intro y hy
        rcases List.mem_singleton.mp hy with rfl
        unfold sep
        simp only []
        omega
      · simp
    · rw [if_pos h1, if_neg h2]
      simp
    · rw [if_neg h1, if_pos h2]
      simp
    · rw [if_neg h1, if_neg h2]
      simp

lemma subtractFold_sep {r : List Interval} (hr : ∀ ri ∈ r, ri.start < ri.stop) :
    ∀ {frs : List Interval}, frs.Pairwise sep →
    (r.foldl (fun frs ri => frs.flatMap (splitOne ri)) frs).Pairwise sep := by
  induction r with
  | nil =>
    intro frs h
    exact h
  | cons ri r ih =>
    intro frs h
    rw [List.foldl_cons]
    refine ih (fun x hx => hr x (List.mem_cons_of_mem _ hx)) ?_
    refine pairwise_sep_flatMap ?_ ?_ h
    · intro f x hx
      exact splitOne_shrink0 hx
    · intro f
      exact splitOne_pairwise (hr ri (List.mem_cons_self _ _))

lemma subtractFrags_shrink0 {r : List Interval} {f g : Interval}
    (hg : g ∈ subtractFrags r f) : f.start ≤ g.start ∧ g.stop ≤ f.stop := by
  rcases subtractFold_shrink0 hg with ⟨f2, hf2, h1, h2⟩
  rcases List.mem_singleton.mp hf2 with rfl
  exact ⟨h1, h2⟩

lemma subtractFrags_ne {r : List Interval} {f g : Interval} (hf : f.start < f.stop)
    (hg : g ∈ subtractFrags r f) : g.start < g.stop := by
  refine subtractFold_ne ?_ hg
  intro f2 hf2
  rcases List.mem_singleton.mp hf2 with rfl
  exact hf

lemma subtractFrags_avoid {r : List Interval} {f g : Interval}
    (hg : g ∈ subtractFrags r f) : ∀ ri ∈ r, g.stop ≤ ri.start ∨ ri.stop ≤ g.start :=
  subtractFold_avoid hg

lemma subtractOut_sep {b r : List Interval} (hb : b.Pairwise sep)
    (hr : ∀ ri ∈ r, ri.start < ri.stop) : (b.flatMap (subtractFrags r)).Pairwise sep := by
  refine pairwise_sep_flatMap ?_ ?_ hb
  · intro f x hx
    exact subtractFrags_shrink0 hx
  · intro f
    exact subtractFold_sep hr (List.pairwise_singleton _ _)

lemma localDate_eq_ediv (tz : TimeZone) (t : Int) :
    localDate tz t = localClock tz t / 1440 :=
  Int.fdiv_eq_ediv _ (by omega)

lemma overrideToLocal_some {o : OverrideDTO} {d : Int} {tz : TimeZone} {iv : Interval}
    (h : overrideToLocalIntervalForDate o d tz = some iv) :
    iv.start = max o.startAt (dayStartInstant tz d) - dayStartInstant tz d ∧
    iv.stop = min o.endAt (dayStartInstant tz d + 1440) - dayStartInstant tz d ∧
    0 ≤ iv.start ∧ iv.stop ≤ 1440 ∧ iv.start < iv.stop := by
  unfold overrideToLocalIntervalForDate at h
  simp only [] at h
  split at h
  · cases h
  · rename_i hc
    push_neg at hc
    injection h with h2
    subst h2
    refine ⟨rfl, rfl, ?_, ?_, ?_⟩ <;> simp only [] <;> omega

lemma mem_overridesForDate_of_some {tz : TimeZone} {overrides : List OverrideDTO}
    {o : OverrideDTO} {d : Int} {iv : Interval} (ho : o ∈ overrides)
    (hl : overrideToLocalIntervalForDate o d tz = some iv) :
    o ∈ overridesForDate tz overrides d := by
  rcases overrideToLocal_some hl with ⟨h1, h2, h3, h4, h5⟩
  refine List.mem_filter.mpr ⟨ho, ?_⟩
  simp only [Bool.and_eq_true, decide_eq_true_eq]
  rw [localDate_eq_ediv, localDate_eq_ediv]
  unfold localClock dayStartInstant at *
  omega

lemma mem_removes_of_unavailable {tz : TimeZone} {d : Int}
    {overrides : List OverrideDTO} {o : OverrideDTO} {iv : Interval}
    (ho : o ∈ overrides) (hk : o.kind = OverrideKind.UNAVAILABLE)
    (hl : overrideToLocalIntervalForDate o d tz = some iv) :
    iv ∈ overrides.filterMap fun o2 =>
      if o2.kind = OverrideKind.AVAILABLE then none
      else overrideToLocalIntervalForDate o2 d tz := by
  refine List.mem_filterMap.mpr ⟨o, ho, ?_⟩
  rw [hk]
  simp [hl]

/-- C5: in the availability resolver, subtraction of UNAVAILABLE overrides is
the last step: a minute point strictly inside the local-clipped interval of an
UNAVAILABLE override of the resolved date is contained in no interval of the
effective availability for that date, whatever weekly windows or AVAILABLE
overrides also cover it. -/
theorem effectiveIntervals_exclude_unavailable
    (tz : TimeZone) (dateISO : Int) (base : List Interval)
    (overrides : List OverrideDTO) (o : OverrideDTO) (iv : Interval) (m : Int)
    (ho : o ∈ overrides) (hk : o.kind = OverrideKind.UNAVAILABLE)
    (hl : overrideToLocalIntervalForDate o dateISO tz = some iv)
    (hm1 : iv.start < m) (hm2 : m < iv.stop) :
    ∀ j ∈ computeEffectiveIntervalsForDate tz dateISO base
      (overridesForDate tz overrides dateISO), ¬(j.start ≤ m ∧ m ≤ j.stop) := by
  intro j hj hcon
  have hosub : o ∈ overridesForDate tz overrides dateISO := mem_overridesForDate_of_some ho hl
  have hivmem := mem_removes_of_unavailable hosub hk hl
  rcases overrideToLocal_some hl with ⟨_, _, hb1, hb2, hb3⟩
  have h1 : memPtC m (computeEffectiveIntervalsForDate tz dateISO base
      (overridesForDate tz overrides dateISO)) := ⟨j, hj, hcon.1, hcon.2⟩
  unfold computeEffectiveIntervalsForDate at h1
  simp only [] at h1
  rcases memPtC_normalize_shrink h1 with ⟨j2, hj2, hc2a, hc2b⟩
  have hclean : iv ∈ cleanedIntervals 1
      (overridesForDate tz overrides dateISO |>.filterMap fun o2 =>
        if o2.kind = OverrideKind.AVAILABLE then none
        else overrideToLocalIntervalForDate o2 dateISO tz) :=
    cleaned_mem_of_bounded hivmem hb1 hb2 hb3 (by omega)
  rcases normalize_contains hclean with ⟨R, hR, hR1, hR2⟩
  have hrne : normalizeIntervals
      (overridesForDate tz overrides dateISO |>.filterMap fun o2 =>
        if o2.kind = OverrideKind.AVAILABLE then none
        else overrideToLocalIntervalForDate o2 dateISO tz) 1 ≠ [] := by
    intro he
    rw [he] at hR
    cases hR
  unfold subtractIntervals at hj2
  simp only [] at hj2
  rw [if_neg hrne] at hj2
  have h2 : memPtC m (normalizeIntervals
      ((normalizeIntervals (unionIntervals base
          (overridesForDate tz overrides dateISO |>.filterMap fun o2 =>
            if o2.kind = OverrideKind.AVAILABLE then overrideToLocalIntervalForDate o2 dateISO tz
            else none) 1) 1).flatMap
        (subtractFrags (normalizeIntervals
          (overridesForDate tz overrides dateISO |>.filterMap fun o2 =>
            if o2.kind = OverrideKind.AVAILABLE then none
            else overrideToLocalIntervalForDate o2 dateISO tz) 1))) 1) :=
    ⟨j2, hj2, hc2a, hc2b⟩
  rcases memPtC_normalize_shrink h2 with ⟨g, hg, hga, hgb⟩
  rcases List.mem_flatMap.mp hg with ⟨f, _, hgf⟩
  rcases subtractFrags_avoid hgf R hR with h3 | h3 <;> omega

/-- Witness for the UNAVAILABLE-exclusion theorem: a 9:00 to 17:00 base day
with a 10:00 to 11:00 UTC UNAVAILABLE override; minute 630 (10:30) is inside
no effective interval. -/
theorem effectiveIntervals_exclude_unavailable_witness :
    overrideToLocalIntervalForDate ⟨600, 660, OverrideKind.UNAVAILABLE⟩ 0 ⟨0⟩ =
        some ⟨600, 660⟩ ∧
    ∀ j ∈ computeEffectiveIntervalsForDate ⟨0⟩ 0 [⟨540, 1020⟩]
      (overridesForDate ⟨0⟩ [⟨600, 660, OverrideKind.UNAVAILABLE⟩] 0),
      ¬(j.start ≤ 630 ∧ 630 ≤ j.stop) :=
  ⟨by decide,
    effectiveIntervals_exclude_unavailable ⟨0⟩ 0 [⟨540, 1020⟩]
      [⟨600, 660, OverrideKind.UNAVAILABLE⟩] ⟨600, 660, OverrideKind.UNAVAILABLE⟩
      ⟨600, 660⟩ 630 (by decide) rfl (by decide) (by decide) (by decide)⟩

lemma cleaned_append {ms : Int} {l1 l2 : List Interval} :
    cleanedIntervals ms (l1 ++ l2) = cleanedIntervals ms l1 ++ cleanedIntervals ms l2 := by
  unfold cleanedIntervals
  rw [List.map_append, List.filter_append]

lemma memPt_append {m : Int} {l1 l2 : List Interval} :
    memPt m (l1 ++ l2) ↔ (memPt m l1 ∨ memPt m l2) := by
  unfold memPt
  constructor
  · rintro ⟨i, hi, hp⟩
    rcases List.mem_append.mp hi with h | h
    · exact Or.inl ⟨i, h, hp⟩
    · exact Or.inr ⟨i, h, hp⟩
  · rintro (⟨i, hi, hp⟩ | ⟨i, hi, hp⟩)
    · exact ⟨i, List.mem_append.mpr (Or.inl hi), hp⟩
    · exact ⟨i, List.mem_append.mpr (Or.inr hi), hp⟩

lemma pairwise_sep_mem {l : List Interval} (h : l.Pairwise sep) {a b : Interval}
    (ha : a ∈ l) (hb : b ∈ l) (hne : a ≠ b) : a.stop < b.start ∨ b.stop < a.start := by
  have hsym : Symmetric fun x y : Interval => x.stop < y.start ∨ y.stop < x.start := by
    intro x y hxy
    tauto
  have h2 : l.Pairwise fun x y : Interval => x.stop < y.start ∨ y.stop < x.start :=
    h.imp fun hxy => Or.inl hxy
  exact h2.forall hsym ha hb hne

/-- C4: for interval lists `A` and `B` with no overlap between any interval
of `A` and any interval of `B` (the half-open `intervalsOverlap` sense, so
touching is allowed), subtracting `B` from the union of `A` and `B` recovers
the normalization of `A`, under the same `minSize` option. -/
theorem subtract_union_cancel (A B : List Interval) (minSize : Int)
    (hdisj : ∀ a ∈ A, ∀ b ∈ B, intervalsOverlap a.start a.stop b.start b.stop = false) :
    subtractIntervals (unionIntervals A B minSize) B minSize =
      normalizeIntervals A minSize := by
  have hUc : Canon minSize (unionIntervals A B minSize) := normalize_canon _ _
  have hbU : normalizeIntervals (unionIntervals A B minSize) minSize =
      unionIntervals A B minSize := normalize_of_canon hUc
  have hPU : ∀ m : Int, memPt m (unionIntervals A B minSize) ↔
      (memPt m (cleanedIntervals minSize A) ∨ memPt m (cleanedIntervals minSize B)) := by
    intro m
    unfold unionIntervals
    rw [memPt_normalize, cleaned_append, memPt_append]
  have hPA : ∀ m : Int, memPt m (normalizeIntervals A minSize) ↔
      memPt m (cleanedIntervals minSize A) := fun m => memPt_normalize A minSize m
  have hPB : ∀ m : Int, memPt m (normalizeIntervals B minSize) ↔
      memPt m (cleanedIntervals minSize B) := fun m => memPt_normalize B minSize m
  have hdisjP : ∀ m : Int, memPt m (cleanedIntervals minSize A) →
      memPt m (cleanedIntervals minSize B) → False := by
    rintro m ⟨i, hi, h1, h2⟩ ⟨i2, hi2, h3, h4⟩
    rcases mem_cleaned_of_shrink hi with ⟨a, ha, h5, h6⟩
    rcases mem_cleaned_of_shrink hi2 with ⟨b, hb, h7, h8⟩
    have := hdisj a ha b hb
    simp only [intervalsOverlap, Bool.and_eq_false_iff, decide_eq_false_iff_not, not_lt,
      gt_iff_lt] at this
    omega
  unfold subtractIntervals
  simp only []
  by_cases hre : normalizeIntervals B minSize = []
  · rw [if_pos hre, hbU]
    refine canon_ext hUc (normalize_canon A minSize) ?_
    intro m
    rw [hPU m, hPA m]
    constructor
    · rintro (h | h)
      · exact h
      · have : memPt m (normalizeIntervals B minSize) := (hPB m).mpr h
        rw [hre] at this
        rcases this with ⟨i, hi, _⟩
        cases hi
    · exact Or.inl
  · rw [if_neg hre, hbU]
    have hrCanon : Canon minSize (normalizeIntervals B minSize) := normalize_canon _ _
    refine canon_ext (normalize_canon _ _) (normalize_canon A minSize) ?_
    intro m
    rw [memPt_normalize, hPA m]
    constructor
    · rintro hcl
      rcases hcl with ⟨g2, hg2, h1, h2⟩
      rcases mem_cleaned_of_shrink hg2 with ⟨g, hg, h3, h4⟩
      have hout : memPt m ((unionIntervals A B minSize).flatMap
          (subtractFrags (normalizeIntervals B minSize))) := ⟨g, hg, by omega, by omega⟩
      rw [memPt_subtractOut] at hout
      rcases hout with ⟨hU, hr⟩
      rcases (hPU m).mp hU with h | h
      · exact h
      · exact absurd ((hPB m).mpr h) hr
    · intro hmA
      have hmA2 : memPt m (normalizeIntervals A minSize) := (hPA m).mpr hmA
      rcases hmA2 with ⟨I, hI, hIa, hIb⟩
      have hAc : Canon minSize (normalizeIntervals A minSize) := normalize_canon A minSize
      have hIne : I.start < I.stop := (hAc.1 I hI).2.2.1
      have hIout : ∀ x : Int, I.start ≤ x → x < I.stop →
          memPt x ((unionIntervals A B minSize).flatMap
            (subtractFrags (normalizeIntervals B minSize))) := by
        intro x hx1 hx2
        rw [memPt_subtractOut]
        have hxA : memPt x (cleanedIntervals minSize A) := (hPA x).mp ⟨I, hI, hx1, hx2⟩
        refine ⟨(hPU x).mpr (Or.inl hxA), ?_⟩
        intro hxr
        exact hdisjP x hxA ((hPB x).mp hxr)
      rcases hIout I.start (le_refl _) hIne with ⟨g, hg, hga, hgb⟩
      have hgsub : ∀ x : Int, g.start ≤ x → x < g.stop →
          memPt x (normalizeIntervals A minSize) := by
        intro x h1 h2
        have hxout : memPt x ((unionIntervals A B minSize).flatMap
            (subtractFrags (normalizeIntervals B minSize))) := ⟨g, hg, h1, h2⟩
        rw [memPt_subtractOut] at hxout
        rcases hxout with ⟨hxU, hxr⟩
        rcases (hPU x).mp hxU with h | h
        · exact (hPA x).mpr h
        · exact absurd ((hPB x).mpr h) hxr
      have hsep : ((unionIntervals A B minSize).flatMap
          (subtractFrags (normalizeIntervals B minSize))).Pairwise sep :=
        subtractOut_sep hUc.2 fun ri hri => (hrCanon.1 ri hri).2.2.1
      have hgne : g.start < g.stop := by omega
      have hgI_start : I.start ≤ g.start := by
        by_contra hlt
        push_neg at hlt
        rcases hgsub (I.start - 1) (by omega) (by omega) with ⟨K, hK, hK1, hK2⟩
        rcases eq_or_ne K I with rfl | hne
        · omega
        · rcases pairwise_sep_mem hAc.2 hK hI hne with h | h
          · omega
          · omega
      have hgI_stop : g.stop ≤ I.stop := by
        by_contra hlt
        push_neg at hlt
        rcases hgsub I.stop (by omega) hlt with ⟨K, hK, hK1, hK2⟩
        rcases eq_or_ne K I with rfl | hne
        · omega
        · have hKne : K.start < K.stop := (hAc.1 K hK).2.2.1
          rcases pairwise_sep_mem hAc.2 hK hI hne with h | h
          · omega
          · omega
      have hgI_stop2 : I.stop ≤ g.stop := by
        by_contra hlt
        push_neg at hlt
        rcases hIout g.stop (by omega) hlt with ⟨g2, hg2, h1, h2⟩
        rcases eq_or_ne g2 g with rfl | hne
        · omega
        · rcases pairwise_sep_mem hsep hg2 hg hne with h3 | h3
          · omega
          · omega
      have hIbnd := hAc.1 I hI
      have hgcl : g ∈ cleanedIntervals minSize ((unionIntervals A B minSize).flatMap
          (subtractFrags (normalizeIntervals B minSize))) :=
        cleaned_mem_of_bounded hg (by omega) (by omega) (by omega) (by omega)
      exact ⟨g, hgcl, by omega, by omega⟩

/-- Witness for the union/subtract cancellation law at a concrete disjoint
pair: `A` is 9:00 to 10:00, `B` is 10:00 to 12:00 (touching, not
overlapping). -/
theorem subtract_union_cancel_witness :
    (∀ a ∈ [Interval.mk 540 600], ∀ b ∈ [Interval.mk 600 720],
      intervalsOverlap a.start a.stop b.start b.stop = false) ∧
    subtractIntervals (unionIntervals [Interval.mk 540 600] [Interval.mk 600 720] 15)
        [Interval.mk 600 720] 15 =
      normalizeIntervals [Interval.mk 540 600] 15 :=
  ⟨by decide, subtract_union_cancel [⟨540, 600⟩] [⟨600, 720⟩] 15 (by decide)⟩

lemma candBefore_total (a b : SuggestionCandidate) : candBefore a b ∨ candBefore b a := by
  unfold candBefore
  rcases lt_trichotomy a.score.total b.score.total with h | h | h
  · exact Or.inr (Or.inl h)
  · rcases lt_trichotomy a.score.attendance b.score.attendance with h2 | h2 | h2
    · exact Or.inr (Or.inr ⟨h.symm, Or.inl h2⟩)
    · rcases lt_trichotomy a.score.fairness b.score.fairness with h3 | h3 | h3
      · exact Or.inr (Or.inr ⟨h.symm, Or.inr ⟨h2.symm, Or.inl h3⟩⟩)
      · rcases Int.le_total a.startAt b.startAt with h4 | h4
        · exact Or.inl (Or.inr ⟨h, Or.inr ⟨h2, Or.inr ⟨h3, h4⟩⟩⟩)
        · exact Or.inr (Or.inr ⟨h.symm, Or.inr ⟨h2.symm, Or.inr ⟨h3.symm, h4⟩⟩⟩)
      · exact Or.inl (Or.inr ⟨h, Or.inr ⟨h2, Or.inl h3⟩⟩)
    · exact Or.inl (Or.inr ⟨h, Or.inl h2⟩)
  · exact Or.inl (Or.inl h)

lemma candBefore_trans (a b c : SuggestionCandidate) (h1 : candBefore a b)
    (h2 : candBefore b c) : candBefore a c := by
  unfold candBefore at *
  rcases h1 with h1 | ⟨e1, h1⟩
  · rcases h2 with h2 | ⟨e2, _⟩
    · exact Or.inl (lt_trans h2 h1)
    · exact Or.inl (lt_of_le_of_lt (le_of_eq e2.symm) h1)
  · rcases h2 with h2 | ⟨e2, h2⟩
    · exact Or.inl (lt_of_lt_of_le h2 (le_of_eq e1.symm))
    · refine Or.inr ⟨e1.trans e2, ?_⟩
      rcases h1 with h1 | ⟨f1, h1⟩
      · rcases h2 with h2 | ⟨f2, _⟩
        · exact Or.inl (lt_trans h2 h1)
        · exact Or.inl (lt_of_le_of_lt (le_of_eq f2.symm) h1)
      · rcases h2 with h2 | ⟨f2, h2⟩
        · exact Or.inl (lt_of_lt_of_le h2 (le_of_eq f1.symm))
        · refine Or.inr ⟨f1.trans f2, ?_⟩
          rcases h1 with h1 | ⟨g1, h1⟩
          · rcases h2 with h2 | ⟨g2, _⟩
            · exact Or.inl (lt_trans h2 h1)
            · exact Or.inl (lt_of_le_of_lt (le_of_eq g2.symm) h1)
          · rcases h2 with h2 | ⟨g2, h2⟩
            · exact Or.inl (lt_of_lt_of_le h2 (le_of_eq g1.symm))
            · exact Or.inr ⟨g1.trans g2, le_trans h1 h2⟩

instance : IsTotal SuggestionCandidate candBefore := ⟨candBefore_total⟩

instance : IsTrans SuggestionCandidate candBefore := ⟨candBefore_trans⟩

lemma assignRanks_length (k : Nat) (l : List SuggestionCandidate) :
    (assignRanks k l).length = l.length := by
  induction l generalizing k with
  | nil => rfl
  | cons c t ih =>
    simp [assignRanks, ih]

lemma assignRanks_rank (k : Nat) (l : List SuggestionCandidate) :
    ∀ i (h : i < (assignRanks k l).length), ((assignRanks k l).get ⟨i, h⟩).rank = k + i := by
  induction l generalizing k with
  | nil =>
    intro i h
    rw [assignRanks] at h
    cases h
  | cons c t ih =>
    intro i h
    cases i with
    | zero => rfl
    | succ n =>
      have h2 : n < (assignRanks (k + 1) t).length := by
        rw [assignRanks_length] at h ⊢
        simp only [List.length_cons] at h
        omega
      have h3 := ih (k + 1) n h2
      have h4 : ((assignRanks k (c :: t)).get ⟨n + 1, h⟩).rank =
          ((assignRanks (k + 1) t).get ⟨n, h2⟩).rank := rfl
      rw [h4, h3]
      omega

lemma mem_assignRanks {l : List SuggestionCandidate} {k : Nat} {b : SuggestionCandidate}
    (hb : b ∈ assignRanks k l) : ∃ b0 ∈ l, ∃ k2 : Nat, b = { b0 with rank := k2 } := by
  induction l generalizing k with
  | nil => cases hb
  | cons c t ih =>
    rcases List.mem_cons.mp hb with h | h
    · exact ⟨c, List.mem_cons_self _ _, k, h⟩
    · rcases ih h with ⟨b0, hb0, k2, he⟩
      exact ⟨b0, List.mem_cons_of_mem _ hb0, k2, he⟩

lemma candBefore_rank_irrelevant {a b : SuggestionCandidate} {k1 k2 : Nat}
    (h : candBefore a b) : candBefore { a with rank := k1 } { b with rank := k2 } := h

lemma assignRanks_pairwise {l : List SuggestionCandidate} {k : Nat}
    (h : l.Pairwise candBefore) : (assignRanks k l).Pairwise candBefore := by
  induction l generalizing k with
  | nil => exact List.Pairwise.nil
  | cons c t ih =>
    rcases List.pairwise_cons.mp h with ⟨hc, ht⟩
    refine List.pairwise_cons.mpr ⟨?_, ih ht⟩
    intro b hb
    rcases mem_assignRanks hb with ⟨b0, hb0, k2, rfl⟩
    exact candBefore_rank_irrelevant (hc b0 hb0)

/-- C1: the candidate list returned by `generateSuggestions` is sorted
descending by total score, then attendance score, then fairness score, with
remaining ties broken ascending by the UTC start instant; it is truncated to
`maxCandidates` (default 25 when omitted), and each candidate carries a
1-based rank equal to its position in the final sorted order. -/
theorem generateSuggestions_ranking (input : GenerateSuggestionsInput) :
    (generateSuggestions input).Pairwise candBefore ∧
    (generateSuggestions input).length =
      min (input.maxCandidates.getD 25) (rawCandidates input).length ∧
    ∀ i (h : i < (generateSuggestions input).length),
      ((generateSuggestions input).get ⟨i, h⟩).rank = i + 1 := by
  refine ⟨?_, ?_, ?_⟩
  · exact assignRanks_pairwise
      (List.Pairwise.sublist (List.take_sublist _ _)
        (List.sorted_insertionSort candBefore (rawCandidates input)))
  · show (assignRanks 1 (((rawCandidates input).insertionSort candBefore).take
        (input.maxCandidates.getD 25))).length = _
    rw [assignRanks_length, List.length_take, List.length_insertionSort]
  · intro i h
    have h2 : i < (assignRanks 1 (((rawCandidates input).insertionSort candBefore).take
        (input.maxCandidates.getD 25))).length := h
    have h3 := assignRanks_rank 1 _ i h2
    show ((assignRanks 1 (((rawCandidates input).insertionSort candBefore).take
        (input.maxCandidates.getD 25))).get ⟨i, h2⟩).rank = i + 1
    rw [h3]
    omega

unseal Rat.add Rat.mul Rat.inv Rat.sub in
/-- Witness for the ranking theorem: on the concrete example input, the first
returned candidate carries rank 1. -/
theorem generateSuggestions_ranking_witness :
    ((generateSuggestions exampleInput).get ⟨0, by decide⟩).rank = 0 + 1 :=
  (generateSuggestions_ranking exampleInput).2.2 0 (by decide)

lemma buildCandidate_some {input : GenerateSuggestionsInput} {d o : Int}
    {c0 : SuggestionCandidate} (h : buildCandidate input d o = some c0) :
    c0 = candidateFor input.attendees (dayStartInstant input.timeZone d + o)
        (dayStartInstant input.timeZone d + o + input.durationMinutes) ∧
      ¬(attendanceRatioFor input.attendees (dayStartInstant input.timeZone d + o)
        (dayStartInstant input.timeZone d + o + input.durationMinutes) ≤ 0) := by
  unfold buildCandidate at h
  simp only [] at h
  split at h
  · cases h
  · split at h
    · cases h
    · rename_i h2
      injection h with h3
      exact ⟨h3.symm, h2⟩

lemma mem_rawCandidates {input : GenerateSuggestionsInput} {c0 : SuggestionCandidate}
    (h : c0 ∈ rawCandidates input) : ∃ d o : Int, buildCandidate input d o = some c0 := by
  unfold rawCandidates at h
  rcases List.mem_flatMap.mp h with ⟨d, _, h2⟩
  rcases List.mem_filterMap.mp h2 with ⟨o, _, h3⟩
  exact ⟨d, o, h3⟩

lemma mem_generateSuggestions {input : GenerateSuggestionsInput} {c : SuggestionCandidate}
    (hc : c ∈ generateSuggestions input) :
    c.endAt = c.startAt + input.durationMinutes ∧
    c.attendanceRatio = attendanceRatioFor input.attendees c.startAt c.endAt ∧
    c.score = scoresFor input.attendees c.startAt c.endAt ∧
    c.availableUserIds = availableUserIdsFor input.attendees c.startAt c.endAt ∧
    c.missingUserIds = missingUserIdsFor input.attendees c.startAt c.endAt ∧
    ¬(attendanceRatioFor input.attendees c.startAt c.endAt ≤ 0) := by
  have hc2 : c ∈ assignRanks 1 (((rawCandidates input).insertionSort candBefore).take
      (input.maxCandidates.getD 25)) := hc
  rcases mem_assignRanks hc2 with ⟨c0, hc0, k, rfl⟩
  have hc0r : c0 ∈ rawCandidates input :=
    (List.mem_insertionSort candBefore).mp ((List.take_sublist _ _).subset hc0)
  rcases mem_rawCandidates hc0r with ⟨d, o, hb⟩
  rcases buildCandidate_some hb with ⟨he, hr⟩
  subst he
  exact ⟨rfl, rfl, rfl, rfl, rfl, hr⟩

/-- C7: no emitted candidate has `attendanceRatio ≤ 0` — every returned
candidate has at least one available attendee — and with no attendees the
returned list is empty. -/
theorem generateSuggestions_attendance_floor (input : GenerateSuggestionsInput) :
    (∀ c ∈ generateSuggestions input,
      0 < c.attendanceRatio ∧ c.availableUserIds ≠ []) ∧
    (input.attendees = [] → generateSuggestions input = []) := by
  constructor
  · intro c hc
    rcases mem_generateSuggestions hc with ⟨_, hratio, _, havail, _, hr⟩
    constructor
    · rw [hratio]
      exact lt_of_not_ge fun hle => hr hle
    · rw [havail]
      intro hnil
      refine hr ?_
      unfold attendanceRatioFor
      split
      · exact le_refl 0
      · rw [hnil]
        simp
  · intro hempty
    have hb : ∀ d o : Int, buildCandidate input d o = none := by
      intro d o
      unfold buildCandidate
      simp only [attendanceRatioFor, hempty, List.length_nil]
      split
      · rfl
      · rw [if_pos (by simp)]
    have hraw : rawCandidates input = [] := by
      unfold rawCandidates
      refine List.flatMap_eq_nil_iff.mpr ?_
      intro d _
      refine List.filterMap_eq_nil_iff.mpr ?_
      intro o _
      exact hb d o
    show assignRanks 1 (((rawCandidates input).insertionSort candBefore).take
      (input.maxCandidates.getD 25)) = []
    rw [hraw]
    rw [show List.insertionSort candBefore [] = [] from rfl, List.take_nil]
    rfl

/-- Witness for the attendance floor: an input with no attendees produces no
candidates. -/
theorem generateSuggestions_attendance_floor_witness :
    generateSuggestions { exampleInput with attendees := [] } = [] :=
  (generateSuggestions_attendance_floor { exampleInput with attendees := [] }).2 rfl

lemma count_map_filter_partition {α β : Type} [DecidableEq β] (p : α → Bool) (f : α → β)
    (l : List α) (y : β) :
    ((l.filter p).map f).count y + ((l.filter fun a => !p a).map f).count y =
      (l.map f).count y := by
  induction l with
  | nil => rfl
  | cons a t ih =>
    by_cases hp : p a = true
    · simp [List.filter_cons, hp, List.count_cons]
      omega
    · simp [List.filter_cons, hp, List.count_cons]
      omega

lemma mem_map_filter_partition {α β : Type} [DecidableEq β] (p : α → Bool) (f : α → β)
    (l : List α) (y : β) :
    (y ∈ (l.filter p).map f ∨ y ∈ (l.filter fun a => !p a).map f) ↔ y ∈ l.map f := by
  constructor
  · rintro (h | h) <;> rcases List.mem_map.mp h with ⟨a, ha, rfl⟩ <;>
      exact List.mem_map_of_mem f (List.mem_of_mem_filter ha)
  · intro h
    rcases List.mem_map.mp h with ⟨a, ha, rfl⟩
    by_cases hp : p a = true
    · exact Or.inl (List.mem_map_of_mem f (List.mem_filter.mpr ⟨ha, hp⟩))
    · refine Or.inr (List.mem_map_of_mem f (List.mem_filter.mpr ⟨ha, ?_⟩))
      simp [hp]

unseal Rat.add Rat.mul Rat.inv Rat.sub in
/-- C10 counterexample: when two input attendees share a userId and exactly
one of them is available, an emitted candidate carries that uid in both
`availableUserIds` and `missingUserIds` — the two lists are not disjoint as
the original claim states. -/
theorem generateSuggestions_userIds_partition_counterexample :
    ({ rank := 1, startAt := 540, endAt := 570, attendanceRatio := 1/2,
        score := { total := 7/10, attendance := 1/2, inconvenience := 1, fairness := 1 },
        availableUserIds := ["u1"], missingUserIds := ["u1"] } : SuggestionCandidate) ∈
      generateSuggestions exampleDupInput ∧
    ("u1" : String) ∈ (["u1"] : List String) ∧ ("u1" : String) ∈ (["u1"] : List String) := by
  refine ⟨by decide, ?_, ?_⟩ <;> decide

/-- C10 amended: for every emitted candidate, `availableUserIds` and
`missingUserIds` together classify each input attendee exactly once: their
union is the input userId list as a set, per-uid counts add up to the input
count, both lists preserve the order the attendees were supplied, and when
the input userIds are pairwise distinct the two lists are disjoint. -/
theorem generateSuggestions_userIds_partition (input : GenerateSuggestionsInput) :
    ∀ c ∈ generateSuggestions input,
      (∀ uid : String, (uid ∈ c.availableUserIds ∨ uid ∈ c.missingUserIds) ↔
        uid ∈ input.attendees.map fun a => a.userId) ∧
      (∀ uid : String, c.availableUserIds.count uid + c.missingUserIds.count uid =
        (input.attendees.map fun a => a.userId).count uid) ∧
      List.Sublist c.availableUserIds (input.attendees.map fun a => a.userId) ∧
      List.Sublist c.missingUserIds (input.attendees.map fun a => a.userId) ∧
      ((input.attendees.map fun a => a.userId).Nodup →
        ∀ uid ∈ c.availableUserIds, uid ∉ c.missingUserIds) := by
  intro c hc
  rcases mem_generateSuggestions hc with ⟨_, _, _, havail, hmiss, _⟩
  rw [havail, hmiss]
  unfold availableUserIdsFor missingUserIdsFor
  refine ⟨?_, ?_, ?_, ?_, ?_⟩
  · intro uid
    exact mem_map_filter_partition _ _ _ uid
  · intro uid
    exact count_map_filter_partition _ _ _ uid
  · exact (List.filter_sublist _).map _
  · exact (List.filter_sublist _).map _
  · intro hnodup uid hmem1 hmem2
    have h1 := List.count_pos_iff.mpr hmem1
    have h2 := List.count_pos_iff.mpr hmem2
    have h3 := count_map_filter_partition (fun a => isAvailableFor a c.startAt c.endAt)
      (fun a => a.userId) input.attendees uid
    have h4 := List.nodup_iff_count_le_one.mp hnodup uid
    omega

unseal Rat.add Rat.mul Rat.inv Rat.sub in
/-- Witness for the userId partition on the concrete example: the first
candidate classifies the single attendee as available, and the counts add
up. -/
theorem generateSuggestions_userIds_partition_witness :
    (["u1"] : List String).count "u1" + ([] : List String).count "u1" =
      (exampleInput.attendees.map fun a => a.userId).count "u1" :=
  (generateSuggestions_userIds_partition exampleInput
    { rank := 1, startAt := 540, endAt := 570, attendanceRatio := 1,
      score := { total := 1, attendance := 1, inconvenience := 1, fairness := 1 },
      availableUserIds := ["u1"], missingUserIds := [] } (by decide)).2.1 "u1"

lemma isUserAvailable_notOk {a : AttendeeAvailabilityInput} {s e : Int}
    (h : localDate a.timeZone s ≠ localDate a.timeZone e) :
    isUserAvailableForUtcInterval a s e = AvailCheck.notOk := by
  unfold isUserAvailableForUtcInterval
  rw [if_pos h]

lemma mem_missing_of_notAvailable {attendees : List AttendeeAvailabilityInput}
    {a : AttendeeAvailabilityInput} {s e : Int}
    (ha : a ∈ attendees) (h : isAvailableFor a s e = false) :
    a.userId ∈ missingUserIdsFor attendees s e := by
  unfold missingUserIdsFor
  refine List.mem_map_of_mem _ (List.mem_filter.mpr ⟨ha, ?_⟩)
  simp [h]

lemma penaltiesFor_append_notOk {l1 l2 : List AttendeeAvailabilityInput}
    {a : AttendeeAvailabilityInput} {s e : Int}
    (h : isUserAvailableForUtcInterval a s e = AvailCheck.notOk) :
    penaltiesFor (l1 ++ a :: l2) s e = penaltiesFor (l1 ++ l2) s e := by
  unfold penaltiesFor availableEntries
  simp only [List.filterMap_append, List.filterMap_cons, h, List.map_append]

/-- C6: an attendee for whom a candidate window straddles a local calendar
date boundary is treated as unavailable for that window: the check returns
not-ok whatever the attendee weekly windows and overrides contain (the
effective intervals are never consulted), the attendee is listed in
`missingUserIds` of every emitted candidate at that window, and the attendee
contributes no penalty entry. -/
theorem generateSuggestions_crossMidnight (input : GenerateSuggestionsInput) :
    ∀ c ∈ generateSuggestions input, ∀ a ∈ input.attendees,
      localDate a.timeZone c.startAt ≠ localDate a.timeZone c.endAt →
      (a.userId ∈ c.missingUserIds ∧
        (∀ windows2 : List WindowDTO, ∀ overrides2 : List OverrideDTO,
          isUserAvailableForUtcInterval
              { a with windows := windows2, overrides := overrides2 } c.startAt c.endAt =
            AvailCheck.notOk) ∧
        (∀ l1 l2 : List AttendeeAvailabilityInput,
          penaltiesFor (l1 ++ a :: l2) c.startAt c.endAt =
            penaltiesFor (l1 ++ l2) c.startAt c.endAt)) := by
  intro c hc a ha hdates
  rcases mem_generateSuggestions hc with ⟨_, _, _, _, hmiss, _⟩
  have hnot : isUserAvailableForUtcInterval a c.startAt c.endAt = AvailCheck.notOk :=
    isUserAvailable_notOk hdates
  refine ⟨?_, ?_, ?_⟩
  · rw [hmiss]
    refine mem_missing_of_notAvailable ha ?_
    unfold isAvailableFor
    rw [hnot]
  · intro windows2 overrides2
    exact isUserAvailable_notOk hdates
  · intro l1 l2
    exact penaltiesFor_append_notOk hnot

unseal Rat.add Rat.mul Rat.inv Rat.sub in
/-- Witness for the cross-midnight rule: on the two-attendee example the
9:00 to 9:30 UTC window straddles local midnight for the +885 minute
attendee, who is listed as missing on the first candidate. -/
theorem generateSuggestions_crossMidnight_witness :
    ("u2" : String) ∈ (["u2"] : List String) :=
  (generateSuggestions_crossMidnight exampleCrossInput
    { rank := 1, startAt := 540, endAt := 570, attendanceRatio := 1/2,
      score := { total := 7/10, attendance := 1/2, inconvenience := 1, fairness := 1 },
      availableUserIds := ["u1"], missingUserIds := ["u2"] } (by decide)
    exampleCrossAttendee (by decide) (by decide)).1

lemma penaltyForLocalInterval_nonneg (s e : Int) : 0 ≤ penaltyForLocalInterval s e := by
  unfold penaltyForLocalInterval
  split_ifs <;> norm_num

lemma penaltyForLocalInterval_le_one (s e : Int) : penaltyForLocalInterval s e ≤ 1 := by
  unfold penaltyForLocalInterval
  split_ifs <;> norm_num

lemma penaltyForLocalInterval_eq_one {s e : Int} (h : ¬(7 * 60 ≤ s ∧ e ≤ 19 * 60)) :
    penaltyForLocalInterval s e = 1 := by
  unfold penaltyForLocalInterval
  rw [if_neg (by omega), if_neg (by omega), if_neg (by omega)]

lemma init_le_foldl_max (l : List Rat) : ∀ init : Rat, init ≤ l.foldl max init := by
  induction l with
  | nil =>
    intro init
    exact le_refl _
  | cons y t ih =>
    intro init
    rw [List.foldl_cons]
    exact le_trans (le_max_left init y) (ih _)

lemma le_foldl_max : ∀ {l : List Rat} {x : Rat}, x ∈ l → ∀ init : Rat, x ≤ l.foldl max init := by
  intro l
  induction l with
  | nil =>
    intro x hx
    cases hx
  | cons y t ih =>
    intro x hx init
    rw [List.foldl_cons]
    rcases List.mem_cons.mp hx with rfl | h
    · exact le_trans (le_max_right init x) (init_le_foldl_max t _)
    · exact ih h _

lemma foldl_max_le {l : List Rat} {b : Rat} : ∀ {init : Rat}, init ≤ b → (∀ x ∈ l, x ≤ b) →
    l.foldl max init ≤ b := by
  induction l with
  | nil =>
    intro init h _
    exact h
  | cons x t ih =>
    intro init h hl
    rw [List.foldl_cons]
    exact ih (max_le h (hl x (List.mem_cons_self _ _))) fun y hy =>
      hl y (List.mem_cons_of_mem _ hy)

lemma mem_availableEntries {attendees : List AttendeeAvailabilityInput}
    {a : AttendeeAvailabilityInput} {s e sm em : Int} (ha : a ∈ attendees)
    (h : isUserAvailableForUtcInterval a s e = AvailCheck.okResult sm em true) :
    (a, sm, em) ∈ availableEntries attendees s e := by
  unfold availableEntries
  refine List.mem_filterMap.mpr ⟨a, ha, ?_⟩
  simp [h]

lemma maxPenaltyFor_eq_one {attendees : List AttendeeAvailabilityInput} {s e : Int}
    {a : AttendeeAvailabilityInput} {sm em : Int} (ha : a ∈ attendees)
    (hok : isUserAvailableForUtcInterval a s e = AvailCheck.okResult sm em true)
    (hp : penaltyForLocalInterval sm em = 1) : maxPenaltyFor attendees s e = 1 := by
  have hmem : (1 : Rat) ∈ penaltiesFor attendees s e := by
    unfold penaltiesFor
    rw [← hp]
    exact List.mem_map_of_mem _ (mem_availableEntries ha hok)
  have hne : penaltiesFor attendees s e ≠ [] := by
    intro h
    rw [h] at hmem
    cases hmem
  unfold maxPenaltyFor
  simp only []
  rw [if_neg hne]
  refine le_antisymm ?_ (le_foldl_max hmem 0)
  refine foldl_max_le (by norm_num) ?_
  intro x hx
  unfold penaltiesFor at hx
  rcases List.mem_map.mp hx with ⟨entry, _, rfl⟩
  exact penaltyForLocalInterval_le_one _ _

/-- C8: every emitted candidate has
`fairnessScore = clamp01(1 - maxPenalty)` with `maxPenalty` the maximum
penalty over available attendees only; if some available attendee has a
local span outside 07:00 to 19:00 (penalty 1), the fairness score is 0. -/
theorem generateSuggestions_fairness_floor (input : GenerateSuggestionsInput) :
    ∀ c ∈ generateSuggestions input,
      c.score.fairness = clamp01 (1 - maxPenaltyFor input.attendees c.startAt c.endAt) ∧
      ((∃ a ∈ input.attendees, ∃ sm em : Int,
          isUserAvailableForUtcInterval a c.startAt c.endAt = AvailCheck.okResult sm em true ∧
          ¬(7 * 60 ≤ sm ∧ em ≤ 19 * 60)) →
        c.score.fairness = 0) := by
  intro c hc
  rcases mem_generateSuggestions hc with ⟨_, _, hscore, _, _, _⟩
  have hfair : c.score.fairness =
      clamp01 (1 - maxPenaltyFor input.attendees c.startAt c.endAt) := by
    rw [hscore]
    rfl
  refine ⟨hfair, ?_⟩
  rintro ⟨a, ha, sm, em, hok, hout⟩
  rw [hfair, maxPenaltyFor_eq_one ha hok (penaltyForLocalInterval_eq_one hout)]
  norm_num [clamp01]

unseal Rat.add Rat.mul Rat.inv Rat.sub in
/-- Witness for the fairness floor: the single candidate of the unfair
example input sits at 6:30 to 7:00 local for its only (available) attendee,
and its fairness score is 0. -/
theorem generateSuggestions_fairness_floor_witness :
    ({ rank := 1, startAt := 390, endAt := 420, attendanceRatio := 1,
        score := { total := 3/5, attendance := 1, inconvenience := 0, fairness := 0 },
        availableUserIds := ["u1"], missingUserIds := [] } :
      SuggestionCandidate).score.fairness = 0 :=
  (generateSuggestions_fairness_floor exampleUnfairInput _ (by decide)).2
    ⟨exampleUnfairAttendee, by decide, 390, 420, by decide, by decide⟩

/-- C2 counterexample: `computeDataFingerprint` hashes the attendee segments
in the order the id list is supplied, not in sorted id order; the permuted
id lists `["b", "a"]` and `["a", "b"]` over identical (empty) version data
produce different fingerprints. -/
theorem computeDataFingerprint_order_counterexample :
    List.Perm ["b", "a"] ["a", "b"] ∧
    computeDataFingerprint ["b", "a"] (fun _ => none) (fun _ => none) ≠
      computeDataFingerprint ["a", "b"] (fun _ => none) (fun _ => none) :=
  ⟨List.Perm.swap "a" "b" [], by decide⟩

/-- C2 amended: `computeDataFingerprint` hashes, for each attendee in the
order the id list is supplied, a segment of that attendee latest
availability timestamp and latest busy timestamp with the sentinel "none";
it is a pure function of the id list and the version data, and two id lists
that are permutations of each other yield the same string when both are
sorted (they are then the same list). -/
theorem computeDataFingerprint_sorted (ids1 ids2 : List String)
    (availabilityVersionByUser busyVersionByUser : String → Option String)
    (hperm : List.Perm ids1 ids2) (h1 : ids1.Sorted (· ≤ ·)) (h2 : ids2.Sorted (· ≤ ·)) :
    (computeDataFingerprint ids1 availabilityVersionByUser busyVersionByUser =
      sha256hex (String.intercalate "|" (ids1.map fun userId =>
        userId ++ ":" ++ (availabilityVersionByUser userId).getD "none" ++ ":" ++
          (busyVersionByUser userId).getD "none"))) ∧
    computeDataFingerprint ids1 availabilityVersionByUser busyVersionByUser =
      computeDataFingerprint ids2 availabilityVersionByUser busyVersionByUser := by
  constructor
  · rfl
  · rw [List.eq_of_perm_of_sorted hperm h1 h2]

/-- Witness for the amended fingerprint claim at a concrete sorted id list. -/
theorem computeDataFingerprint_sorted_witness :
    computeDataFingerprint ["a"] (fun _ => none) (fun _ => none) =
      computeDataFingerprint ["a"] (fun _ => none) (fun _ => none) :=
  (computeDataFingerprint_sorted ["a"] ["a"] (fun _ => none) (fun _ => none)
    (List.Perm.refl _) (List.sorted_singleton _) (List.sorted_singleton _)).2

end Lattice
